import Mathlib

/-!
Verification of the `generator` crate of the rust-jni repository.

This file shallowly embeds the generator pipeline from
`src/generator/src/lib.rs`: the token model (a purely structural version of
`proc_macro2::TokenTree`), the qualified-name reader (`JavaName::from_tokens`),
the declaration parser (`parse_java_definition` and its helpers), and the
semantic resolver (`to_generator_data`, `populate_interface_extends`).

Modelling conventions, chosen once and used throughout:

* Rust panics (`panic!`, failing `unwrap`, out-of-bounds slice indexing) are
  modelled as `Except.error` with a message naming the failure; the message of
  a failing `Option::unwrap` is the fixed Rust text, since the source's panic
  there carries no further data.
* `HashMap` is modelled as a Lean function updated with `Function.update`
  (last insert wins, as in Rust); `HashSet` is modelled as a `Finset`.
  Places where the source iterates over a hash container in unspecified order
  take an explicit enumeration oracle `ord : Finset JavaName → List JavaName`;
  the canonical instantiation enumerates in the order `≤` on segment lists,
  which for identifier segments coincides with the source's
  `sort_by(to_string)` order on the rendered `::`-separated streams.
* The source's unbounded recursions (`populate_interface_extends_rec`, which
  the source's own TODO notes diverges on cycles, and the `transitive_extends`
  loop) are made total: the closure recursion refuses to revisit a key along
  one recursion path (which never happens for acyclic inputs) and the chain
  loop carries fuel larger than the number of map inserts; hitting either
  limit is an `Except.error` that stands for divergence of the source.
-/

/-- Delimiter of a `proc_macro2` group token. -/
inductive Delim where
  | parenthesis
  | brace
  | bracket
  | bare
deriving DecidableEq, Repr

/-- Structural model of `proc_macro2::TokenTree`: identifiers, punctuation
(with its `Spacing::Alone` flag), delimited groups and literals. -/
inductive TokenTree where
  | identTok (name : String)
  | punct (ch : Char) (alone : Bool)
  | group (delim : Delim) (stream : List TokenTree)
  | literal (value : String)
deriving Repr

mutual

/-- Decidable equality of tokens (the nested `List` blocks automatic
derivation). -/
def TokenTree.decEq : (a b : TokenTree) → Decidable (a = b)
  | .identTok a, .identTok b =>
      if h : a = b then .isTrue (by rw [h])
      else .isFalse (by intro hc; cases hc; exact h rfl)
  | .punct c1 a1, .punct c2 a2 =>
      if h : c1 = c2 ∧ a1 = a2 then .isTrue (by rw [h.1, h.2])
      else .isFalse (by intro hc; cases hc; exact h ⟨rfl, rfl⟩)
  | .group d1 s1, .group d2 s2 =>
      if hd : d1 = d2 then
        match TokenTree.decEqList s1 s2 with
        | .isTrue hs => .isTrue (by rw [hd, hs])
        | .isFalse hs => .isFalse (by intro hc; cases hc; exact hs rfl)
      else .isFalse (by intro hc; cases hc; exact hd rfl)
  | .literal a, .literal b =>
      if h : a = b then .isTrue (by rw [h])
      else .isFalse (by intro hc; cases hc; exact h rfl)
  | .identTok _, .punct _ _ => .isFalse (by intro h; cases h)
  | .identTok _, .group _ _ => .isFalse (by intro h; cases h)
  | .identTok _, .literal _ => .isFalse (by intro h; cases h)
  | .punct _ _, .identTok _ => .isFalse (by intro h; cases h)
  | .punct _ _, .group _ _ => .isFalse (by intro h; cases h)
  | .punct _ _, .literal _ => .isFalse (by intro h; cases h)
  | .group _ _, .identTok _ => .isFalse (by intro h; cases h)
  | .group _ _, .punct _ _ => .isFalse (by intro h; cases h)
  | .group _ _, .literal _ => .isFalse (by intro h; cases h)
  | .literal _, .identTok _ => .isFalse (by intro h; cases h)
  | .literal _, .punct _ _ => .isFalse (by intro h; cases h)
  | .literal _, .group _ _ => .isFalse (by intro h; cases h)

/-- Decidable equality of token lists. -/
def TokenTree.decEqList : (a b : List TokenTree) → Decidable (a = b)
  | [], [] => .isTrue rfl
  | [], _ :: _ => .isFalse (by intro h; cases h)
  | _ :: _, [] => .isFalse (by intro h; cases h)
  | a :: as, b :: bs =>
      match TokenTree.decEq a b, TokenTree.decEqList as bs with
      | .isTrue h1, .isTrue h2 => .isTrue (by rw [h1, h2])
      | .isFalse h1, _ => .isFalse (by intro hc; injection hc; contradiction)
      | .isTrue _, .isFalse h2 =>
          .isFalse (by intro hc; injection hc; contradiction)

end

instance : DecidableEq TokenTree := TokenTree.decEq

/-- `is_identifier`: the token is an identifier with the given text. -/
def isIdentifier (token : TokenTree) (name : String) : Bool :=
  match token with
  | .identTok n => n = name
  | _ => false

/-- `is_punctuation`: an `Alone`-spaced punctuation token with the given char. -/
def isPunctuation (token : TokenTree) (value : Char) : Bool :=
  match token with
  | .punct c alone => alone && c = value
  | _ => false

/-- `is_definition`: a brace-delimited group token. -/
def isDefinition (token : TokenTree) : Bool :=
  match token with
  | .group .brace _ => true
  | _ => false

/-- `is_metadata_definition`: a brace-delimited group, or a `;` punctuation
token (with any spacing — the source checks only `as_char`). -/
def isMetadataDefinition (token : TokenTree) : Bool :=
  match token with
  | .group .brace _ => true
  | .punct c _ => c = ';'
  | _ => false

/-- Opening text of a delimiter, for display rendering. -/
def Delim.openText : Delim → String
  | .parenthesis => "("
  | .brace => "\x7b"
  | .bracket => "["
  | .bare => ""

/-- Closing text of a delimiter, for display rendering. -/
def Delim.closeText : Delim → String
  | .parenthesis => ")"
  | .brace => "\x7d"
  | .bracket => "]"
  | .bare => ""

mutual

/-- Display rendering of a token, modelling `TokenTree::to_string`. -/
def renderToken : TokenTree → String
  | .identTok n => n
  | .punct c _ => String.singleton c
  | .group d s => d.openText ++ renderList s ++ d.closeText
  | .literal v => v

/-- Display rendering of a token list, modelling `TokenStream::to_string`:
tokens joined by single spaces. -/
def renderList : List TokenTree → String
  | [] => ""
  | [t] => renderToken t
  | t :: rest => renderToken t ++ " " ++ renderList rest

end

/-- A qualified Java name: its identifier segments, in order.  The source's
`JavaName` wraps the token stream of the identifiers; equality and hashing are
by string form, which on identifier streams is segment-list equality. -/
abbrev JavaName := List String

/-- The state machine inside `JavaName::from_tokens` (the closure given to
`flat_map_threaded`): the `Bool` records whether the previous token was an
identifier.  Returns the identifier segments seen (the source filters the
token run down to its identifiers), or the panic message. -/
def fromTokensGo : Bool → List TokenTree → Except String (List String)
  | _, [] => .ok []
  | false, .identTok n :: rest => (fromTokensGo true rest).map (n :: ·)
  | true, .punct c _ :: rest =>
      if c = '.' then fromTokensGo false rest
      else .error "Expected a dot."
  | true, _ :: _ => .error "Expected a dot."
  | false, _ :: _ => .error "Expected an identifier."

/-- `JavaName::from_tokens`: read a qualified name off a token run. -/
def JavaName.fromTokens (tokens : List TokenTree) : Except String JavaName := do
  let segments ← fromTokensGo false tokens
  if segments.isEmpty then .error "Expected a Java name, got no tokens."
  else .ok segments

/-- `JavaName::name`: the final identifier segment (`into_iter().last().unwrap()`
— panics on an empty stream). -/
def JavaName.lastName (name : JavaName) : Except String String :=
  match name.getLast? with
  | some s => .ok s
  | none => .error "called `Option::unwrap()` on a `None` value"

/-- `Vec::join("/")` as used by `JavaName::with_slashes`. -/
def joinWithSlash : List String → String
  | [] => ""
  | [s] => s
  | s :: rest => s ++ "/" ++ joinWithSlash rest

/-- `JavaName::with_slashes`: the segments joined by the path separator. -/
def JavaName.withSlashes (name : JavaName) : String :=
  joinWithSlash name

/-- The token run `a . b . c` produced by `JavaName::with_dots`. -/
def JavaName.withDotsTokens : JavaName → List TokenTree
  | [] => []
  | [s] => [.identTok s]
  | s :: rest => .identTok s :: .punct '.' true :: JavaName.withDotsTokens rest

/-- `JavaName::as_primitive_type`: the fixed primitive-name table, yielding the
target scalar type's name. -/
def JavaName.asPrimitiveType (name : JavaName) : Option String :=
  match name with
  | [s] =>
      if s = "int" then some "i32"
      else if s = "long" then some "i64"
      else if s = "char" then some "char"
      else if s = "byte" then some "u8"
      else if s = "boolean" then some "bool"
      else if s = "float" then some "f32"
      else if s = "double" then some "f64"
      else none
  | _ => none

/-- Result of `JavaName::as_rust_type`: a primitive scalar type, or the
wrapper type `::a::b::C<'a>` of a non-primitive name. -/
inductive RustType where
  | primitive (s : String)
  | wrapper (n : JavaName)
deriving DecidableEq, Repr

/-- Result of `JavaName::as_rust_type_reference`: a primitive scalar type, or
a reference `& ::a::b::C` to the wrapper type. -/
inductive RustTypeRef where
  | primitive (s : String)
  | reference (n : JavaName)
deriving DecidableEq, Repr

/-- `JavaName::as_rust_type`. -/
def JavaName.asRustType (name : JavaName) : RustType :=
  match name.asPrimitiveType with
  | some p => .primitive p
  | none => .wrapper name

/-- `JavaName::as_rust_type_reference`. -/
def JavaName.asRustTypeReference (name : JavaName) : RustTypeRef :=
  match name.asPrimitiveType with
  | some p => .primitive p
  | none => .reference name

/-- `slice::split`: split a token list on separators satisfying `p`, removing
the separators; yields one (possibly empty) chunk per gap. -/
def splitTokens (p : TokenTree → Bool) : List TokenTree → List (List TokenTree)
  | [] => [[]]
  | t :: rest =>
      let r := splitTokens p rest
      if p t then [] :: r
      else
        match r with
        | [] => [[t]]
        | s :: rs => (t :: s) :: rs

/-- `comma_separated_names`: split a token run on `,` and read a qualified
name from each non-empty chunk. -/
def commaSeparatedNames (tokens : List TokenTree) : Except String (List JavaName) :=
  ((splitTokens (isPunctuation · ',') tokens).filter (fun c => !c.isEmpty)).mapM
    JavaName.fromTokens

/-- `parse_interface_header`: name, then the `extends` name list. -/
def parseInterfaceHeader (header : List TokenTree) :
    Except String (JavaName × List JavaName) := do
  let name ← JavaName.fromTokens
    (header.takeWhile (fun t => !isIdentifier t "extends"))
  let extendsList ← commaSeparatedNames
    (((header.dropWhile (fun t => !isIdentifier t "extends")).drop 1))
  pure (name, extendsList)

/-- `parse_class_header`: name, optional single `extends` name, `implements`
name list.  The `extends`/`implements` keywords delimit the sub-clauses. -/
def parseClassHeader (header : List TokenTree) :
    Except String (JavaName × Option JavaName × List JavaName) := do
  let name ← JavaName.fromTokens
    (header.takeWhile
      (fun t => !isIdentifier t "extends" && !isIdentifier t "implements"))
  let implementsList ← commaSeparatedNames
    ((header.dropWhile (fun t => !isIdentifier t "implements")).drop 1)
  let hasExtends := header.any (fun t => isIdentifier t "extends")
  let extendsName ←
    if hasExtends then
      (JavaName.fromTokens
        (((header.dropWhile (fun t => !isIdentifier t "extends")).drop 1).takeWhile
          (fun t => !isIdentifier t "implements"))).map some
    else pure none
  pure (name, extendsName, implementsList)

/-- A method or constructor argument: local name and qualified type name. -/
structure MethodArgument where
  name : String
  dataType : JavaName
deriving DecidableEq, Repr

/-- A parsed class method. -/
structure JavaClassMethod where
  name : String
  returnType : JavaName
  arguments : List MethodArgument
  public : Bool
  isStatic : Bool
deriving DecidableEq, Repr

/-- A parsed class constructor. -/
structure JavaConstructor where
  arguments : List MethodArgument
  public : Bool
deriving DecidableEq, Repr

/-- A parsed class declaration. -/
structure JavaClass where
  extendsName : Option JavaName
  implementsList : List JavaName
  methods : List JavaClassMethod
  constructors : List JavaConstructor
deriving DecidableEq, Repr

/-- A parsed interface declaration. -/
structure JavaInterface where
  extendsList : List JavaName
deriving DecidableEq, Repr

/-- Class or interface payload of a declaration. -/
inductive JavaDefinitionKind where
  | classKind (c : JavaClass)
  | interfaceKind (i : JavaInterface)
deriving DecidableEq, Repr

/-- A parsed top-level declaration. -/
structure JavaDefinition where
  name : JavaName
  public : Bool
  definition : JavaDefinitionKind
deriving DecidableEq, Repr

/-- A class metadata stub: header only. -/
structure JavaClassMetadata where
  extendsName : Option JavaName
  implementsList : List JavaName
deriving DecidableEq, Repr

/-- An interface metadata stub: header only. -/
structure JavaInterfaceMetadata where
  extendsList : List JavaName
deriving DecidableEq, Repr

/-- Class or interface payload of a metadata stub. -/
inductive JavaDefinitionMetadataKind where
  | classKind (c : JavaClassMetadata)
  | interfaceKind (i : JavaInterfaceMetadata)
deriving DecidableEq, Repr

/-- A metadata stub. -/
structure JavaDefinitionMetadata where
  name : JavaName
  definition : JavaDefinitionMetadataKind
deriving DecidableEq, Repr

/-- The metadata block. -/
structure Metadata where
  definitions : List JavaDefinitionMetadata
deriving DecidableEq, Repr

/-- Everything `parse_java_definition` produces. -/
structure JavaDefinitions where
  definitions : List JavaDefinition
  metadata : Metadata
deriving DecidableEq, Repr

/-- `is_constructor`: the chunk contains `public` anywhere ⇒ drop its first
and last token, else drop only its last token; the remainder must render
equal to the class's own dotted qualified name.  With `public` present and a
single-token chunk the source's slice `tokens[1..len-1]` panics. -/
def isConstructor (tokens : List TokenTree) (className : JavaName) :
    Except String Bool :=
  if tokens.any (fun t => isIdentifier t "public") then
    if tokens.length < 2 then
      .error "slice index starts at 1 but ends at 0"
    else
      .ok (renderList ((tokens.drop 1).dropLast) =
        renderList className.withDotsTokens)
  else
    .ok (renderList tokens.dropLast = renderList className.withDotsTokens)

/-- `parse_method_arguments`: the token must be a parenthesised group; its
stream splits on `,`; in each non-empty chunk the final token is the argument
name (an identifier) and the preceding tokens its qualified type name. -/
def parseMethodArguments (token : TokenTree) :
    Except String (List MethodArgument) :=
  match token with
  | .group .parenthesis stream =>
      ((splitTokens (isPunctuation · ',') stream).filter (fun c => !c.isEmpty)).mapM
        (fun chunk =>
          match chunk.getLast? with
          | some (.identTok n) =>
              (JavaName.fromTokens chunk.dropLast).map
                (fun dt => { name := n, dataType := dt })
          | some _ => .error "Expected argument name."
          | none => .error "called `Option::unwrap()` on a `None` value")
  | .group _ _ => .error "Expected method arguments in parenthesis."
  | _ => .error "Expected method arguments."

/-- `parse_method`: `public`/`static` flags are `any`-occurrence tests; all
their occurrences are filtered out; then the trailing group is the argument
list, the token before it the method name, and the leading tokens the return
type.  Indexing `tokens[len-2]` underflows on fewer than two tokens. -/
def parseMethod (tokens : List TokenTree) : Except String JavaClassMethod := do
  let isPublic := tokens.any (fun t => isIdentifier t "public")
  let isStatic := tokens.any (fun t => isIdentifier t "static")
  let toks := tokens.filter
    (fun t => !isIdentifier t "public" && !isIdentifier t "static")
  if toks.length < 2 then
    .error "attempt to subtract with overflow"
  else do
    let name ←
      match toks.get? (toks.length - 2) with
      | some (.identTok n) => pure n
      | some t => .error ("Expected method name, got " ++ renderToken t ++ ".")
      | none => .error "index out of bounds"
    let returnType ← JavaName.fromTokens (toks.take (toks.length - 2))
    let arguments ← parseMethodArguments (toks.getLastD (.identTok ""))
    pure { name := name, returnType := returnType, arguments := arguments,
           public := isPublic, isStatic := isStatic }

/-- `parse_constructor`: the `public` flag is an `any`-occurrence test; all
its occurrences are filtered out; the final remaining token is the argument
list.  Indexing `tokens[len-1]` underflows on an empty remainder. -/
def parseConstructor (tokens : List TokenTree) : Except String JavaConstructor := do
  let isPublic := tokens.any (fun t => isIdentifier t "public")
  let toks := tokens.filter (fun t => !isIdentifier t "public")
  match toks.getLast? with
  | none => .error "attempt to subtract with overflow"
  | some last => do
      let arguments ← parseMethodArguments last
      pure { arguments := arguments, public := isPublic }

/-- The constructor pass over a class body's `;`-separated chunks: keep the
chunks `is_constructor` accepts and parse each (interleaving the laziness of
Rust's `filter(..).map(..)` chain, so errors surface in source order). -/
def collectConstructors (className : JavaName) :
    List (List TokenTree) → Except String (List JavaConstructor)
  | [] => .ok []
  | c :: cs => do
      if ← isConstructor c className then
        let k ← parseConstructor c
        let rest ← collectConstructors className cs
        pure (k :: rest)
      else
        collectConstructors className cs

/-- The method pass over a class body's `;`-separated chunks: parse every
chunk `is_constructor` rejects. -/
def collectMethods (className : JavaName) :
    List (List TokenTree) → Except String (List JavaClassMethod)
  | [] => .ok []
  | c :: cs => do
      if ← isConstructor c className then
        collectMethods className cs
      else
        let m ← parseMethod c
        let rest ← collectMethods className cs
        pure (m :: rest)

/-- `parse_metadata`: split the metadata block's stream on `;` and brace
groups; each chunk is a header-only class or interface stub. -/
def parseMetadata (tokens : List TokenTree) : Except String Metadata := do
  let defs ← ((splitTokens isMetadataDefinition tokens).filter
      (fun c => !c.isEmpty)).mapM
    (fun header =>
      match header with
      | [] => .error "called `Option::unwrap()` on a `None` value"
      | token :: rest =>
          if isIdentifier token "interface" then do
            let (name, extendsList) ← parseInterfaceHeader rest
            pure { name := name,
                   definition := JavaDefinitionMetadataKind.interfaceKind
                     ({ extendsList := extendsList }) }
          else if isIdentifier token "class" then do
            let (name, extendsName, implementsList) ← parseClassHeader rest
            pure { name := name,
                   definition := JavaDefinitionMetadataKind.classKind
                     ({ extendsName := extendsName,
                        implementsList := implementsList }) }
          else
            .error ("Expected \"class\" or \"interface\", got " ++
              renderToken token ++ "."))
  pure { definitions := defs }

/-- Header parsing of one top-level declaration chunk: optional `public`,
then `class`/`interface`, then the header; classes start with empty bodies. -/
def parseDefinitionHeader (chunk : List TokenTree) :
    Except String JavaDefinition := do
  match chunk with
  | [] => .error "called `Option::unwrap()` on a `None` value"
  | token :: rest => do
      let isPublic := isIdentifier token "public"
      let (token, rest) ←
        if isPublic then
          match rest with
          | [] => .error "called `Option::unwrap()` on a `None` value"
          | t :: r => pure (t, r)
        else pure (token, rest)
      if isIdentifier token "interface" then do
        let (name, extendsList) ← parseInterfaceHeader rest
        pure { name := name, public := isPublic,
               definition := JavaDefinitionKind.interfaceKind
                 ({ extendsList := extendsList }) }
      else if isIdentifier token "class" then do
        let (name, extendsName, implementsList) ← parseClassHeader rest
        pure { name := name, public := isPublic,
               definition := JavaDefinitionKind.classKind
                 ({ extendsName := extendsName,
                    implementsList := implementsList, methods := [],
                    constructors := [] }) }
      else
        .error ("Expected \"class\" or \"interface\", got " ++
          renderToken token ++ ".")

/-- One declaration with its brace-group body: parse the header, then for a
class split the body on `;` and classify/parse each chunk; an interface's
body tokens are not examined at all. -/
def parseDefinitionWithBody (chunk : List TokenTree) (body : List TokenTree) :
    Except String JavaDefinition := do
  let d ← parseDefinitionHeader chunk
  match d.definition with
  | .classKind c => do
      let chunks := (splitTokens (isPunctuation · ';') body).filter
        (fun c => !c.isEmpty)
      let constructors ← collectConstructors d.name chunks
      let methods ← collectMethods d.name chunks
      let newClass : JavaClass :=
        { c with methods := methods, constructors := constructors }
      pure { d with definition := JavaDefinitionKind.classKind newClass }
  | .interfaceKind _ => pure d

/-- The `zip` of header chunks with body groups.  Rust's `Zip` polls the
header side first, so a trailing chunk with no body still has its header
parsed (surfacing its error) and is then dropped. -/
def parseDefsList :
    List (List TokenTree) → List TokenTree → Except String (List JavaDefinition)
  | [], _ => .ok []
  | c :: _, [] => do
      let _ ← parseDefinitionHeader c
      pure []
  | c :: cs, g :: gs => do
      let d ←
        match g with
        | .group _ stream => parseDefinitionWithBody c stream
        | _ => .error "internal error: entered unreachable code"
      let rest ← parseDefsList cs gs
      pure (d :: rest)

/-- The declaration pass of `parse_java_definition` once the metadata block
has been removed: split on brace groups, pair each non-empty chunk with its
body group, and parse. -/
def parseDefinitionsOnly (tokens : List TokenTree) (md : Metadata) :
    Except String JavaDefinitions := do
  let chunks := (splitTokens isDefinition tokens).filter (fun c => !c.isEmpty)
  let groups := tokens.filter isDefinition
  let defs ← parseDefsList chunks groups
  pure { definitions := defs, metadata := md }

/-- `parse_java_definition`: an input whose second-to-last token is the
identifier `metadata` ends with a brace-delimited metadata block (anything
else after `metadata` is a structural error); the rest is the declaration
sequence. -/
def parseJavaDefinition (input : List TokenTree) :
    Except String JavaDefinitions :=
  match input.reverse with
  | lastTok :: prevTok :: restRev =>
      if isIdentifier prevTok "metadata" then
        match lastTok with
        | .group .brace stream => do
            let md ← parseMetadata stream
            parseDefinitionsOnly restRev.reverse md
        | .group d s =>
            .error ("Expected braces, got " ++ renderToken (.group d s) ++ ".")
        | t => .error ("Expected braces, got " ++ renderToken t ++ ".")
      else parseDefinitionsOnly input { definitions := [] }
  | _ => parseDefinitionsOnly input { definitions := [] }

/-- The `interface_extends` map of `to_generator_data`: the finite key set
plus the set-valued lookup function (a `HashMap<JavaName, HashSet<JavaName>>`
in the source; lookups of absent keys panic through `unwrap`). -/
structure IfaceMap where
  keys : Finset JavaName
  sets : JavaName → Finset JavaName

/-- `interface_extends.get(key).unwrap()`. -/
def mGet (m : IfaceMap) (key : JavaName) : Except String (Finset JavaName) :=
  if key ∈ m.keys then .ok (m.sets key)
  else .error "called `Option::unwrap()` on a `None` value"

/-- Canonical enumeration of a hash set: ascending in the lexicographic order
on segment lists, which on identifier segments coincides with the source's
`sort_by(to_string)` order of the rendered `::`-separated token streams. -/
def canonOrd (s : Finset JavaName) : List JavaName :=
  s.sort (· ≤ ·)

/-- The `interfaces.extend(interface_extends.get(interface).unwrap())` loop:
union the sets of the listed keys into the accumulator. -/
def extendAll (m : IfaceMap) :
    List JavaName → Finset JavaName → Except String (Finset JavaName)
  | [], acc => .ok acc
  | i :: rest, acc =>
      match mGet m i with
      | .error e => .error e
      | .ok s => extendAll m rest (acc ∪ s)

mutual

/-- `populate_interface_extends_rec`: read the key's direct set, recursively
close every member, then union the members' (now closed) sets into the direct
set and store it back.  The source's recursion is unbounded and diverges on
cycles (its own TODO); here a key may not be revisited along one recursion
path — which never happens on acyclic input — and a revisit is the error
standing for divergence. -/
def populateRec (ord : Finset JavaName → List JavaName)
    (allowed : Finset JavaName) (m : IfaceMap) (key : JavaName) :
    Except String IfaceMap :=
  match mGet m key with
  | .error e => .error e
  | .ok interfaces =>
      if h : key ∈ allowed then
        match populateRecAll ord (allowed.erase key) (ord interfaces) m with
        | .error e => .error e
        | .ok m1 =>
            match extendAll m1 (ord interfaces) interfaces with
            | .error e => .error e
            | .ok newSet =>
                .ok { keys := m1.keys,
                      sets := Function.update m1.sets key newSet }
      else .error "recursion limit: cyclic interface extension"
termination_by (allowed.card, 0)
decreasing_by
  exact Prod.Lex.left _ _ (Finset.card_erase_lt_of_mem h)

/-- Recursive closure of each key in a list, threading the map. -/
def populateRecAll (ord : Finset JavaName → List JavaName)
    (allowed : Finset JavaName) (l : List JavaName) (m : IfaceMap) :
    Except String IfaceMap :=
  match l with
  | [] => .ok m
  | i :: rest =>
      match populateRec ord allowed m i with
      | .error e => .error e
      | .ok m1 => populateRecAll ord allowed rest m1
termination_by (allowed.card, l.length + 1)
decreasing_by
  · exact Prod.Lex.right _ (Nat.zero_lt_succ _)
  · exact Prod.Lex.right _ (Nat.lt_succ_self _)

end

/-- `populate_interface_extends`: close every key of the map. -/
def populateInterfaceExtends (ord : Finset JavaName → List JavaName)
    (m : IfaceMap) : Except String IfaceMap :=
  populateRecAll ord m.keys (ord m.keys) m

/-- The `(name, extends-set)` inserts that build `interface_extends`: local
interface declarations first, then interface metadata stubs. -/
def ifaceExtendsInserts (defs : JavaDefinitions) :
    List (JavaName × List JavaName) :=
  (defs.definitions.filterMap fun d =>
    match d.definition with
    | .interfaceKind i => some (d.name, i.extendsList)
    | _ => none) ++
  (defs.metadata.definitions.filterMap fun d =>
    match d.definition with
    | .interfaceKind i => some (d.name, i.extendsList)
    | _ => none)

/-- Building `interface_extends`: `entry(name).or_insert(HashSet::new())`
followed by inserting each directly-extended name. -/
def ifaceMapOf (defs : JavaDefinitions) : IfaceMap :=
  (ifaceExtendsInserts defs).foldl
    (fun m p =>
      { keys := insert p.1 m.keys,
        sets := Function.update m.sets p.1 (m.sets p.1 ∪ p.2.toFinset) })
    { keys := ∅, sets := fun _ => ∅ }

/-- The implicit root object type substituted for an omitted `extends`. -/
def javaLangObject : JavaName := ["java", "lang", "Object"]

/-- The `(name, declared superclass)` inserts that build `extends_map`:
local class declarations first, then class metadata stubs. -/
def classExtendsInserts (defs : JavaDefinitions) :
    List (JavaName × Option JavaName) :=
  (defs.definitions.filterMap fun d =>
    match d.definition with
    | .classKind c => some (d.name, c.extendsName)
    | _ => none) ++
  (defs.metadata.definitions.filterMap fun d =>
    match d.definition with
    | .classKind c => some (d.name, c.extendsName)
    | _ => none)

/-- `extends_map`: each class maps to its declared superclass, or to the
implicit root when `extends` was omitted; later inserts overwrite. -/
def extendsMapOf (defs : JavaDefinitions) : JavaName → Option JavaName :=
  (classExtendsInserts defs).foldl
    (fun m p => Function.update m p.1 (some (p.2.getD javaLangObject)))
    (fun _ => none)

/-- The `transitive_extends` loop: walk `extends_map` upward from the class,
collecting each superclass, until a name has no entry.  The source's loop has
no bound and diverges on a cyclic map; the fuel is the divergence proxy. -/
def transitiveExtendsLoop (emap : JavaName → Option JavaName) :
    Nat → JavaName → Except String (List JavaName)
  | 0, _ => .error "nontermination: cyclic class extension"
  | fuel + 1, current =>
      match emap current with
      | none => .ok []
      | some s => (transitiveExtendsLoop emap fuel s).map (s :: ·)

/-- Fuel that dominates every terminating walk of `extends_map`: one more
than the number of inserts that built the map. -/
def chainFuel (defs : JavaDefinitions) : Nat :=
  (classExtendsInserts defs).length + 1

/-- The resolved `transitive_extends` chain of one class. -/
def transitiveExtendsOf (defs : JavaDefinitions) (name : JavaName) :
    Except String (List JavaName) :=
  transitiveExtendsLoop (extendsMapOf defs) (chainFuel defs) name

/-- The resolved implements set of a class: the closure set of each declared
interface, unioned with the declared interfaces themselves, collected into a
hash set (deduplication) and sorted for deterministic output. -/
def resolveImplements (m : IfaceMap) (impls : List JavaName) :
    Except String (List JavaName) := do
  let closureSets ← impls.mapM (mGet m)
  let implSet : Finset JavaName := closureSets.foldl (· ∪ ·) ∅ ∪ impls.toFinset
  pure (implSet.sort (· ≤ ·))

/-- `ClassMethodGeneratorDefinition` (argument types through the
primitive-or-wrapper mapping, object arguments by reference). -/
structure ClassMethodGeneratorDefinition where
  name : String
  javaName : String
  returnType : RustType
  argumentNames : List String
  argumentTypes : List RustTypeRef
  public : Bool
deriving DecidableEq, Repr

/-- `ConstructorGeneratorDefinition`. -/
structure ConstructorGeneratorDefinition where
  name : String
  argumentNames : List String
  argumentTypes : List RustTypeRef
  public : Bool
deriving DecidableEq, Repr

/-- `ClassGeneratorDefinition`: the fully resolved facts the emitter consumes
for one class.  Name-valued fields hold the qualified names whose
`::`-separated renderings the source stores. -/
structure ClassGeneratorDefinition where
  className : String
  public : Bool
  superClass : JavaName
  transitiveExtends : List JavaName
  implements : List JavaName
  signature : String
  fullSignature : String
  constructors : List ConstructorGeneratorDefinition
  methods : List ClassMethodGeneratorDefinition
  staticMethods : List ClassMethodGeneratorDefinition
deriving DecidableEq, Repr

/-- `InterfaceGeneratorDefinition`. -/
structure InterfaceGeneratorDefinition where
  interfaceName : String
  public : Bool
  extendsList : List JavaName
deriving DecidableEq, Repr

/-- One resolved definition. -/
inductive GeneratorDefinition where
  | classDef (c : ClassGeneratorDefinition)
  | interfaceDef (i : InterfaceGeneratorDefinition)
deriving DecidableEq, Repr

/-- The resolved model handed to the emitter. -/
structure GeneratorData where
  definitions : List GeneratorDefinition
deriving DecidableEq, Repr

/-- `to_generator_method`. -/
def toGeneratorMethod (method : JavaClassMethod) :
    ClassMethodGeneratorDefinition :=
  { name := method.name, javaName := method.name,
    returnType := method.returnType.asRustType,
    argumentNames := method.arguments.map (·.name),
    argumentTypes := method.arguments.map (fun a => a.dataType.asRustTypeReference),
    public := method.public }

/-- `to_generator_constructor`: the generated operation is always `new`. -/
def toGeneratorConstructor (constructor : JavaConstructor) :
    ConstructorGeneratorDefinition :=
  { name := "new",
    argumentNames := constructor.arguments.map (·.name),
    argumentTypes :=
      constructor.arguments.map (fun a => a.dataType.asRustTypeReference),
    public := constructor.public }

/-- Resolution of one parsed declaration, in the source's evaluation order:
final name segment, ancestor chain, signatures, superclass, implements set,
method and constructor conversions. -/
def resolveDef (m : IfaceMap) (emap : JavaName → Option JavaName) (fuel : Nat)
    (d : JavaDefinition) : Except String GeneratorDefinition := do
  let definitionName ← d.name.lastName
  match d.definition with
  | .classKind c => do
      let transExt ← transitiveExtendsLoop emap fuel d.name
      let stringSignature := d.name.withSlashes
      let fullSig := "L" ++ stringSignature ++ ";"
      let superClass := c.extendsName.getD javaLangObject
      let implementsSorted ← resolveImplements m c.implementsList
      let staticMethods := (c.methods.filter (·.isStatic)).map toGeneratorMethod
      let methods :=
        (c.methods.filter (fun mth => !mth.isStatic)).map toGeneratorMethod
      let constructors := c.constructors.map toGeneratorConstructor
      pure (GeneratorDefinition.classDef
        { className := definitionName, public := d.public,
          superClass := superClass, transitiveExtends := transExt,
          implements := implementsSorted, signature := stringSignature,
          fullSignature := fullSig, constructors := constructors,
          methods := methods, staticMethods := staticMethods })
  | .interfaceKind i =>
      pure (GeneratorDefinition.interfaceDef
        { interfaceName := definitionName, public := d.public,
          extendsList := i.extendsList })

/-- `to_generator_data`, parameterized by the hash-enumeration oracle: build
and close the interface map, build the extends map, then resolve every
declaration in input order. -/
def toGeneratorDataO (ord : Finset JavaName → List JavaName)
    (defs : JavaDefinitions) : Except String GeneratorData := do
  let m ← populateInterfaceExtends ord (ifaceMapOf defs)
  let resolved ←
    defs.definitions.mapM (resolveDef m (extendsMapOf defs) (chainFuel defs))
  pure { definitions := resolved }

/-- `to_generator_data` with the canonical hash enumeration. -/
def toGeneratorData (defs : JavaDefinitions) : Except String GeneratorData :=
  toGeneratorDataO canonOrd defs

/-- The front half of `java_generate_impl`: parse, then resolve.  Emission
(`generate`) is a pure function of the resolved model. -/
def javaGenerateData (input : List TokenTree) : Except String GeneratorData := do
  toGeneratorData (← parseJavaDefinition input)

/-- The identifier texts of a token run, in order (what the source's
`filter`/`from_iter` keeps as the name's segments). -/
def identsOf (tokens : List TokenTree) : List String :=
  tokens.filterMap (fun t =>
    match t with
    | .identTok n => some n
    | _ => none)

/-- The acceptance automaton of the name reader, as a standalone predicate:
state `true` means the previous token was an identifier. -/
def acceptedFrom : Bool → List TokenTree → Bool
  | _, [] => true
  | false, .identTok _ :: rest => acceptedFrom true rest
  | true, .punct c _ :: rest => c = '.' && acceptedFrom false rest
  | _, _ => false

/-- The token runs the name reader actually accepts, written as a grammar:
an identifier, then any number of dot-identifier continuations, optionally
ending on a single trailing dot. -/
def acceptedNameRun : List TokenTree → Bool
  | [.identTok _] => true
  | .identTok _ :: .punct c _ :: rest =>
      c = '.' && (rest.isEmpty || acceptedNameRun rest)
  | _ => false

/-- Modelled from the spec (§4.1): the alternating pattern *identifier, dot,
identifier, …, identifier*, starting and ending on an identifier. -/
def specNamePattern : List TokenTree → Bool
  | [.identTok _] => true
  | .identTok _ :: .punct c _ :: rest => c = '.' && specNamePattern rest
  | _ => false

/-- Modelled from the spec (§4.2): a chunk is a constructor when, after
removing a leading visibility keyword, the remaining tokens exactly equal the
enclosing class's own qualified name followed by an argument list. -/
def specIsConstructor (tokens : List TokenTree) (className : JavaName) : Bool :=
  let rest :=
    match tokens with
    | .identTok "public" :: r => r
    | r => r
  match rest.getLast? with
  | some (.group .parenthesis _) => rest.dropLast = className.withDotsTokens
  | _ => false

/-- The membership graph of an interface map: an edge from a key to each name
in its direct set. -/
def edgeOf (m : IfaceMap) (a b : JavaName) : Prop :=
  b ∈ m.sets a

/-- Acyclicity of an interface-extension mapping: no name reaches itself
through one or more `extends` edges. -/
def AcyclicMap (m : IfaceMap) : Prop :=
  ∀ a, ¬ Relation.TransGen (edgeOf m) a a

/-- An interface map that is already transitively closed: every mentioned
name is itself a key, and a member's set is contained in its mentioner's. -/
def ClosedMap (m : IfaceMap) : Prop :=
  (∀ k ∈ m.keys, m.sets k ⊆ m.keys) ∧
    ∀ k ∈ m.keys, ∀ i ∈ m.sets k, m.sets i ⊆ m.sets k

/-- A valid hash-enumeration oracle: enumerates exactly the set's elements. -/
def ValidOrd (ord : Finset JavaName → List JavaName) : Prop :=
  ∀ s : Finset JavaName, ∀ x, x ∈ ord s ↔ x ∈ s

/-- Splitting a character list on a separator character, for reading the
segments back out of a derived signature path. -/
def splitOnChar (c : Char) : List Char → List (List Char)
  | [] => [[]]
  | x :: rest =>
      let r := splitOnChar c rest
      if x = c then [] :: r
      else
        match r with
        | [] => [[x]]
        | s :: rs => (x :: s) :: rs

/-- Every name mentioned in a key's set is itself a key. -/
def MentionClosedMap (m : IfaceMap) : Prop :=
  ∀ k ∈ m.keys, m.sets k ⊆ m.keys

/-- Invariant relating an intermediate closure map to the initial map: the
keys are unchanged, every original direct set is still contained, and every
element added so far was already reachable in the original graph. -/
def Sandwich (m₀ m : IfaceMap) : Prop :=
  m.keys = m₀.keys ∧
  (∀ k, m₀.sets k ⊆ m.sets k) ∧
  (∀ k, ∀ x ∈ m.sets k, Relation.TransGen (edgeOf m₀) k x)

/-- The message of a failing `Option::unwrap()`. -/
def unwrapMsg : String := "called `Option::unwrap()` on a `None` value"

theorem exceptBindOk {α β : Type} {x : Except String α} {f : α → Except String β}
    {b : β} : x >>= f = Except.ok b ↔ ∃ a, x = Except.ok a ∧ f a = Except.ok b := by
  cases x <;> simp [Bind.bind, Except.bind]

theorem exceptBindError {α β : Type} {x : Except String α} {f : α → Except String β}
    {e : String} :
    x >>= f = Except.error e ↔
      x = Except.error e ∨ ∃ a, x = Except.ok a ∧ f a = Except.error e := by
  cases x <;> simp [Bind.bind, Except.bind]

theorem anyMove (p : TokenTree → Bool) (t : TokenTree) (a b : List TokenTree) :
    (a ++ t :: b).any p = (t :: (a ++ b)).any p := by
  simp [List.any_append, Bool.or_comm, Bool.or_left_comm]

theorem filterMove (q : TokenTree → Bool) (t : TokenTree) (hq : q t = false)
    (a b : List TokenTree) :
    (a ++ t :: b).filter q = (t :: (a ++ b)).filter q := by
  simp [List.filter_append, List.filter_cons, hq]

theorem parseMethodCongr (t1 t2 : List TokenTree)
    (h1 : t1.any (fun t => isIdentifier t "public") =
      t2.any (fun t => isIdentifier t "public"))
    (h2 : t1.any (fun t => isIdentifier t "static") =
      t2.any (fun t => isIdentifier t "static"))
    (h3 : t1.filter (fun t => !isIdentifier t "public" && !isIdentifier t "static") =
      t2.filter (fun t => !isIdentifier t "public" && !isIdentifier t "static")) :
    parseMethod t1 = parseMethod t2 := by
  unfold parseMethod
  rw [h1, h2, h3]

theorem parseConstructorCongr (t1 t2 : List TokenTree)
    (h1 : t1.any (fun t => isIdentifier t "public") =
      t2.any (fun t => isIdentifier t "public"))
    (h3 : t1.filter (fun t => !isIdentifier t "public") =
      t2.filter (fun t => !isIdentifier t "public")) :
    parseConstructor t1 = parseConstructor t2 := by
  unfold parseConstructor
  rw [h1, h3]

theorem parseMethodOkFlags (tokens : List TokenTree) (m : JavaClassMethod)
    (h : parseMethod tokens = .ok m) :
    m.public = tokens.any (fun t => isIdentifier t "public") ∧
      m.isStatic = tokens.any (fun t => isIdentifier t "static") := by
  unfold parseMethod at h
  simp only [] at h
  split at h
  · exact absurd h (by simp)
  · split at h
    · rw [pure_bind] at h
      rw [exceptBindOk] at h
      obtain ⟨rt, hrt, h⟩ := h
      rw [exceptBindOk] at h
      obtain ⟨args, hargs, h⟩ := h
      simp only [pure, Except.pure, Except.ok.injEq] at h
      subst h
      exact ⟨rfl, rfl⟩
    · simp [Bind.bind, Except.bind] at h
    · simp [Bind.bind, Except.bind] at h

theorem parseConstructorOkFlags (tokens : List TokenTree) (k : JavaConstructor)
    (h : parseConstructor tokens = .ok k) :
    k.public = tokens.any (fun t => isIdentifier t "public") := by
  unfold parseConstructor at h
  simp only [] at h
  split at h
  · exact absurd h (by simp)
  · rw [exceptBindOk] at h
    obtain ⟨args, hargs, h⟩ := h
    simp only [pure, Except.pure, Except.ok.injEq] at h
    subst h
    rfl

/-- Claim C10: a body chunk parsed as a method is marked public (resp.
static) iff the identifier `public` (resp. `static`) occurs anywhere among
the chunk's top-level tokens, not only in leading position; all occurrences
are removed before name, return type and arguments are derived (so a parse
treats a mid-chunk keyword exactly like a leading one); likewise a
constructor chunk is marked public iff `public` occurs anywhere. -/
theorem claim10 (tokens a b : List TokenTree) (m : JavaClassMethod)
    (k : JavaConstructor) :
    (parseMethod tokens = .ok m →
      m.public = tokens.any (fun t => isIdentifier t "public") ∧
        m.isStatic = tokens.any (fun t => isIdentifier t "static")) ∧
    parseMethod (a ++ TokenTree.identTok "public" :: b) =
      parseMethod (TokenTree.identTok "public" :: (a ++ b)) ∧
    parseMethod (a ++ TokenTree.identTok "static" :: b) =
      parseMethod (TokenTree.identTok "static" :: (a ++ b)) ∧
    (parseConstructor tokens = .ok k →
      k.public = tokens.any (fun t => isIdentifier t "public")) ∧
    parseConstructor (a ++ TokenTree.identTok "public" :: b) =
      parseConstructor (TokenTree.identTok "public" :: (a ++ b)) := by
  refine ⟨parseMethodOkFlags tokens m, ?_, ?_, parseConstructorOkFlags tokens k, ?_⟩
  · exact parseMethodCongr _ _ (anyMove _ _ _ _) (anyMove _ _ _ _)
      (filterMove _ _ (by simp [isIdentifier]) _ _)
  · exact parseMethodCongr _ _ (anyMove _ _ _ _) (anyMove _ _ _ _)
      (filterMove _ _ (by simp [isIdentifier]) _ _)
  · exact parseConstructorCongr _ _ (anyMove _ _ _ _)
      (filterMove _ _ (by simp [isIdentifier]) _ _)

/-- Witness for C10 at a concrete chunk `static int f()` and constructor
chunk `()`: the parsed flags equal the any-occurrence tests. -/
theorem claim10_witness :
    ({ name := "f", returnType := ["int"], arguments := [], public := false,
       isStatic := true } : JavaClassMethod).public =
      [TokenTree.identTok "static", TokenTree.identTok "int",
        TokenTree.identTok "f",
        TokenTree.group Delim.parenthesis []].any
        (fun t => isIdentifier t "public") ∧
    ({ arguments := [], public := false } : JavaConstructor).public =
      [TokenTree.group Delim.parenthesis []].any
        (fun t => isIdentifier t "public") := by
  have h := claim10
    [TokenTree.identTok "static", TokenTree.identTok "int",
      TokenTree.identTok "f", TokenTree.group Delim.parenthesis []] [] []
    { name := "f", returnType := ["int"], arguments := [], public := false,
      isStatic := true }
    { arguments := [], public := false }
  have h2 := claim10 [TokenTree.group Delim.parenthesis []] [] []
    { name := "f", returnType := ["int"], arguments := [], public := false,
      isStatic := true }
    { arguments := [], public := false }
  exact ⟨(h.1 rfl).1, h2.2.2.2.1 rfl⟩

/-- Claim C9: a parsed interface declaration depends only on its header
chunk, never on the tokens inside its body braces — the same chunk with any
other body parses to the identical value, the body silently discarded. -/
theorem claim9 (chunk b1 b2 : List TokenTree) (d : JavaDefinition)
    (h : parseDefinitionWithBody chunk b1 = .ok d)
    (hi : ∃ i, d.definition = JavaDefinitionKind.interfaceKind i) :
    parseDefinitionWithBody chunk b2 = .ok d := by
  obtain ⟨i, hi⟩ := hi
  unfold parseDefinitionWithBody at h ⊢
  rw [exceptBindOk] at h
  obtain ⟨d0, hd0, h⟩ := h
  rw [exceptBindOk]
  refine ⟨d0, hd0, ?_⟩
  revert h
  cases hk : d0.definition with
  | classKind c =>
      intro h
      rw [exceptBindOk] at h
      obtain ⟨ctors, _, h⟩ := h
      rw [exceptBindOk] at h
      obtain ⟨mthds, _, h⟩ := h
      simp only [pure, Except.pure, Except.ok.injEq] at h
      subst h
      simp at hi
  | interfaceKind j =>
      intro h
      exact h

/-- Witness for C9: `interface I` with body `x` parses identically to
`interface I` with an empty body. -/
theorem claim9_witness :
    parseDefinitionWithBody [TokenTree.identTok "interface", TokenTree.identTok "I"]
      [] =
      .ok { name := ["I"], public := false,
            definition := JavaDefinitionKind.interfaceKind { extendsList := [] } } := by
  exact claim9 [TokenTree.identTok "interface", TokenTree.identTok "I"]
    [TokenTree.identTok "x"] []
    { name := ["I"], public := false,
      definition := JavaDefinitionKind.interfaceKind { extendsList := [] } }
    rfl ⟨{ extendsList := [] }, rfl⟩

theorem exceptMapOk {α β : Type} {x : Except String α} {f : α → β} {b : β} :
    x.map f = .ok b ↔ ∃ a, x = .ok a ∧ f a = b := by
  cases x <;> simp [Except.map]

theorem exceptMapMNil {α β : Type} (f : α → Except String β) :
    ([] : List α).mapM f = .ok [] := by
  rw [← List.mapM'_eq_mapM]
  rfl

theorem exceptMapMCons {α β : Type} (f : α → Except String β) (a : α)
    (l : List α) :
    (a :: l).mapM f = f a >>= fun x => l.mapM f >>= fun xs => pure (x :: xs) := by
  rw [← List.mapM'_eq_mapM, List.mapM']
  simp [List.mapM'_eq_mapM]

theorem collectPartition (className : JavaName) (f : List TokenTree → Bool) :
    ∀ chunks : List (List TokenTree),
      (∀ c ∈ chunks, isConstructor c className = .ok (f c)) →
      collectConstructors className chunks =
        (chunks.filter f).mapM parseConstructor ∧
      collectMethods className chunks =
        (chunks.filter (fun c => !f c)).mapM parseMethod
  | [], _ =>
      ⟨by rw [List.filter_nil, exceptMapMNil]; rfl,
       by rw [List.filter_nil, exceptMapMNil]; rfl⟩
  | c :: cs, h => by
      have hc : isConstructor c className = .ok (f c) := h c (by simp)
      have ih := collectPartition className f cs
        (fun c hcm => h c (by simp [hcm]))
      constructor
      · simp only [collectConstructors, hc, Bind.bind, Except.bind,
          List.filter_cons]
        cases hf : f c
        · simp only [hf, ih.1, Bool.false_eq_true, reduceIte]
        · simp only [hf, ih.1, reduceIte, exceptMapMCons, Bind.bind,
            Except.bind]
      · simp only [collectMethods, hc, Bind.bind, Except.bind, List.filter_cons]
        cases hf : f c
        · simp only [hf, Bool.not_false, ih.2, reduceIte, exceptMapMCons,
            Bind.bind, Except.bind, Bool.false_eq_true]
        · simp only [hf, Bool.not_true, ih.2, reduceIte, Bool.false_eq_true]

/-- Claim C7 (amended): the chunk classifier drops the chunk's first token
whenever `public` occurs anywhere in the chunk (and its final token always,
without checking that it is an argument list), then compares the rendering of
the remainder against the class's dotted qualified name; with `public`
present in a single-token chunk the slice indexing panics; every chunk the
classifier rejects is parsed as a method, every accepted one as a
constructor. -/
theorem claim7 (tokens : List TokenTree) (className : JavaName)
    (chunks : List (List TokenTree)) (f : List TokenTree → Bool) :
    (tokens.any (fun t => isIdentifier t "public") = false →
      isConstructor tokens className =
        .ok (renderList tokens.dropLast = renderList className.withDotsTokens)) ∧
    (tokens.any (fun t => isIdentifier t "public") = true →
      2 ≤ tokens.length →
      isConstructor tokens className =
        .ok (renderList ((tokens.drop 1).dropLast) =
          renderList className.withDotsTokens)) ∧
    (tokens.any (fun t => isIdentifier t "public") = true →
      tokens.length < 2 →
      isConstructor tokens className =
        .error "slice index starts at 1 but ends at 0") ∧
    ((∀ c ∈ chunks, isConstructor c className = .ok (f c)) →
      collectConstructors className chunks =
        (chunks.filter f).mapM parseConstructor ∧
      collectMethods className chunks =
        (chunks.filter (fun c => !f c)).mapM parseMethod) := by
  refine ⟨?_, ?_, ?_, collectPartition className f chunks⟩
  · intro h
    simp [isConstructor, h]
  · intro h hlen
    simp [isConstructor, h, Nat.not_lt.mpr hlen]
  · intro h hlen
    simp [isConstructor, h, hlen]

/-- Counterexample for C7: for a class named `A`, the body chunk
`public A A` — whose remainder after the leading keyword is *not* the class
name followed by an argument list — is nonetheless classified as a
constructor, because the classifier never checks that the final token is an
argument list. -/
theorem claim7_counterexample :
    isConstructor
        [TokenTree.identTok "public", TokenTree.identTok "A",
          TokenTree.identTok "A"] ["A"] = .ok true ∧
    specIsConstructor
        [TokenTree.identTok "public", TokenTree.identTok "A",
          TokenTree.identTok "A"] ["A"] = false := by
  exact ⟨rfl, rfl⟩

/-- Witness for C7 at the chunk `A ()` of class `A`: no `public` occurs, and
the classifier accepts it; the chunk list `[A ()]` is then partitioned with
the chunk among the constructors. -/
theorem claim7_witness :
    isConstructor [TokenTree.identTok "A", TokenTree.group Delim.parenthesis []]
        ["A"] =
      .ok (renderList
          [TokenTree.identTok "A",
            TokenTree.group Delim.parenthesis []].dropLast =
        renderList (JavaName.withDotsTokens ["A"])) ∧
    collectConstructors ["A"]
        [[TokenTree.identTok "A", TokenTree.group Delim.parenthesis []]] =
      ([[TokenTree.identTok "A",
          TokenTree.group Delim.parenthesis []]].filter
        (fun _ => true)).mapM parseConstructor := by
  have h := claim7 [TokenTree.identTok "A", TokenTree.group Delim.parenthesis []]
    ["A"] [[TokenTree.identTok "A", TokenTree.group Delim.parenthesis []]]
    (fun _ => true)
  refine ⟨h.1 rfl, ?_⟩
  exact (h.2.2.2 (by intro c hc; simp at hc; subst hc; rfl)).1

theorem fromTokensGoIsOk :
    ∀ (toks : List TokenTree) (s : Bool),
      (∃ l, fromTokensGo s toks = .ok l) ↔ acceptedFrom s toks = true
  | [], s => by cases s <;> simp [fromTokensGo, acceptedFrom]
  | t :: rest, s => by
      cases s <;> cases t
      case false.identTok n =>
        have ih := fromTokensGoIsOk rest true
        simp only [fromTokensGo, acceptedFrom]
        constructor
        · rintro ⟨l, hl⟩
          rw [exceptMapOk] at hl
          obtain ⟨a, ha, _⟩ := hl
          exact ih.mp ⟨a, ha⟩
        · intro h
          obtain ⟨a, ha⟩ := ih.mpr h
          exact ⟨n :: a, by rw [exceptMapOk]; exact ⟨a, ha, rfl⟩⟩
      case false.punct c a => simp [fromTokensGo, acceptedFrom]
      case false.group d str => simp [fromTokensGo, acceptedFrom]
      case false.literal v => simp [fromTokensGo, acceptedFrom]
      case true.identTok n => simp [fromTokensGo, acceptedFrom]
      case true.punct c a =>
        have ih := fromTokensGoIsOk rest false
        by_cases hc : c = '.'
        · simp [fromTokensGo, acceptedFrom, hc, ih]
        · simp [fromTokensGo, acceptedFrom, hc]
      case true.group d str => simp [fromTokensGo, acceptedFrom]
      case true.literal v => simp [fromTokensGo, acceptedFrom]

theorem fromTokensGoVal :
    ∀ (toks : List TokenTree) (s : Bool) (l : List String),
      fromTokensGo s toks = .ok l → l = identsOf toks
  | [], s, l => by cases s <;> simp [fromTokensGo, identsOf]
  | t :: rest, s, l => by
      cases s <;> cases t <;>
        simp only [fromTokensGo, identsOf, List.filterMap_cons] <;>
        try exact fun h => absurd h (by simp)
      case false.identTok n =>
        intro h
        rw [exceptMapOk] at h
        obtain ⟨a, ha, hl⟩ := h
        have := fromTokensGoVal rest true a ha
        subst hl
        simp [identsOf, this]
      case true.punct c a =>
        by_cases hc : c = '.'
        · simp only [hc, if_pos, reduceIte]
          intro h
          have := fromTokensGoVal rest false l h
          simp [identsOf, this]
        · simp [hc]

theorem acceptedNameRunEq :
    ∀ toks : List TokenTree,
      acceptedNameRun toks = (!toks.isEmpty && acceptedFrom false toks)
  | [] => by simp [acceptedNameRun, acceptedFrom]
  | [.identTok n] => by simp [acceptedNameRun, acceptedFrom]
  | .identTok n :: .punct c a :: rest => by
      have ih := acceptedNameRunEq rest
      simp only [acceptedNameRun, acceptedFrom, List.isEmpty_cons, Bool.not_false,
        Bool.true_and, ih]
      cases rest <;> simp [acceptedFrom]
  | .identTok n :: .identTok m :: rest => by
      simp [acceptedNameRun, acceptedFrom]
  | .identTok n :: .group d s :: rest => by
      simp [acceptedNameRun, acceptedFrom]
  | .identTok n :: .literal v :: rest => by
      simp [acceptedNameRun, acceptedFrom]
  | .punct c a :: rest => by simp [acceptedNameRun, acceptedFrom]
  | .group d s :: rest => by simp [acceptedNameRun, acceptedFrom]
  | .literal v :: rest => by simp [acceptedNameRun, acceptedFrom]

/-- Claim C5 (amended): the qualified-name reader accepts exactly the
nonempty alternating runs that start on an identifier and may also end on a
single trailing separator dot (the strict *ends on an identifier* pattern of
the spec is not enforced); the name produced is the run's identifier
sequence; an empty run and the malformed input `class` abort with the
"expected a name" error. -/
theorem claim5 (tokens : List TokenTree) (n : JavaName) :
    ((∃ nm, JavaName.fromTokens tokens = .ok nm) ↔
      acceptedNameRun tokens = true) ∧
    (JavaName.fromTokens tokens = .ok n → n = identsOf tokens) ∧
    JavaName.fromTokens [] = .error "Expected a Java name, got no tokens." ∧
    parseJavaDefinition [TokenTree.identTok "class"] =
      .error "Expected a Java name, got no tokens." := by
  refine ⟨?_, ?_, rfl, rfl⟩
  · rw [acceptedNameRunEq]
    constructor
    · rintro ⟨nm, hnm⟩
      unfold JavaName.fromTokens at hnm
      rw [exceptBindOk] at hnm
      obtain ⟨l, hl, hnm⟩ := hnm
      have hne : ¬ l.isEmpty := by
        intro he
        simp [he] at hnm
      have hacc := (fromTokensGoIsOk tokens false).mp ⟨l, hl⟩
      have hval := fromTokensGoVal tokens false l hl
      cases tokens with
      | nil =>
          subst hval
          simp [identsOf] at hne
      | cons t rest => simp [hacc]
    · intro h
      simp only [Bool.and_eq_true, Bool.not_eq_true'] at h
      obtain ⟨hne, hacc⟩ := h
      obtain ⟨l, hl⟩ := (fromTokensGoIsOk tokens false).mpr hacc
      have hval := fromTokensGoVal tokens false l hl
      cases tokens with
      | nil => simp at hne
      | cons t rest =>
          cases t with
          | identTok nm =>
              refine ⟨l, ?_⟩
              unfold JavaName.fromTokens
              rw [exceptBindOk]
              refine ⟨l, hl, ?_⟩
              have : l = nm :: identsOf rest := by
                simpa [identsOf] using hval
              simp [this]
          | punct c a => simp [acceptedFrom] at hacc
          | group d s => simp [acceptedFrom] at hacc
          | literal v => simp [acceptedFrom] at hacc
  · intro h
    unfold JavaName.fromTokens at h
    rw [exceptBindOk] at h
    obtain ⟨l, hl, h⟩ := h
    have hval := fromTokensGoVal tokens false l hl
    split at h
    · exact absurd h (by simp)
    · rw [Except.ok.injEq] at h
      subst h
      exact hval

/-- Counterexample for C5: the run `a .` ends on a separator, not an
identifier — the spec's pattern rejects it — yet the reader accepts it and
produces the name `a`. -/
theorem claim5_counterexample :
    JavaName.fromTokens [TokenTree.identTok "a", TokenTree.punct '.' true] =
      .ok ["a"] ∧
    specNamePattern [TokenTree.identTok "a", TokenTree.punct '.' true] = false := by
  exact ⟨rfl, rfl⟩

/-- Witness for C5 at the run `a . b`: it is accepted and produces the
segments `a`, `b`. -/
theorem claim5_witness :
    acceptedNameRun
        [TokenTree.identTok "a", TokenTree.punct '.' true,
          TokenTree.identTok "b"] = true ∧
    ["a", "b"] = identsOf
        [TokenTree.identTok "a", TokenTree.punct '.' true,
          TokenTree.identTok "b"] := by
  have h := claim5
    [TokenTree.identTok "a", TokenTree.punct '.' true, TokenTree.identTok "b"]
    ["a", "b"]
  exact ⟨h.1.mp ⟨["a", "b"], rfl⟩, h.2.1 rfl⟩

theorem splitOnCharNeNil (c : Char) : ∀ l : List Char, splitOnChar c l ≠ []
  | [] => by simp [splitOnChar]
  | x :: rest => by
      have := splitOnCharNeNil c rest
      simp only [splitOnChar]
      split
      · simp
      · split
        · simp
        · simp

theorem splitOnCharNoSep (c : Char) :
    ∀ l : List Char, c ∉ l → splitOnChar c l = [l]
  | [], _ => rfl
  | x :: rest, h => by
      have hx : ¬ x = c := fun he => h (by simp [he])
      have ih : splitOnChar c rest = [rest] :=
        splitOnCharNoSep c rest (fun hm => h (by simp [hm]))
      simp [splitOnChar, hx, ih]

theorem splitOnCharAppend (c : Char) :
    ∀ l1 l2 : List Char, c ∉ l1 →
      splitOnChar c (l1 ++ c :: l2) = l1 :: splitOnChar c l2
  | [], l2, _ => by simp [splitOnChar]
  | x :: xs, l2, h => by
      have hx : ¬ x = c := fun he => h (by simp [he])
      have ih : splitOnChar c (xs ++ c :: l2) = xs :: splitOnChar c l2 :=
        splitOnCharAppend c xs l2 (fun hm => h (by simp [hm]))
      simp [splitOnChar, hx, ih]

theorem joinWithSlashData :
    ∀ (s : String) (rest : List String), rest ≠ [] →
      (joinWithSlash (s :: rest)).data = s.data ++ '/' :: (joinWithSlash rest).data
  | s, [], h => absurd rfl h
  | s, r :: rs, _ => by
      show (s ++ "/" ++ joinWithSlash (r :: rs)).data = _
      rw [String.data_append, String.data_append]
      have hd : "/".data = ['/'] := rfl
      simp [hd]

theorem splitJoin :
    ∀ segs : List String, segs ≠ [] → (∀ s ∈ segs, '/' ∉ s.data) →
      splitOnChar '/' (joinWithSlash segs).data = segs.map String.data
  | [], h, _ => absurd rfl h
  | [s], _, hns => by
      show splitOnChar '/' s.data = [s.data]
      exact splitOnCharNoSep '/' s.data (hns s (by simp))
  | s :: r :: rs, _, hns => by
      rw [joinWithSlashData s (r :: rs) (by simp)]
      rw [splitOnCharAppend '/' s.data _ (hns s (by simp))]
      rw [splitJoin (r :: rs) (by simp) (fun x hx => hns x (by simp [hx]))]
      rfl

/-- Claim C6: for a non-primitive qualified name of k ≥ 1 identifier
segments, the derived signature path splits back into exactly those k
segments on the path separator (so it has exactly k separator-joined
segments), and the full foreign signature the resolver stores is that path
wrapped in the fixed `L`/`;` markers. -/
theorem claim6 (segs : JavaName) (m : IfaceMap)
    (emap : JavaName → Option JavaName) (fuel : Nat) (d : JavaDefinition)
    (g : ClassGeneratorDefinition)
    (hne : segs ≠ []) (hns : ∀ s ∈ segs, '/' ∉ s.data) :
    splitOnChar '/' (JavaName.withSlashes segs).data = segs.map String.data ∧
    (splitOnChar '/' (JavaName.withSlashes segs).data).length = segs.length ∧
    (resolveDef m emap fuel d = .ok (.classDef g) →
      g.signature = d.name.withSlashes ∧
      g.fullSignature = "L" ++ d.name.withSlashes ++ ";") := by
  have hsplit : splitOnChar '/' (JavaName.withSlashes segs).data =
      segs.map String.data := splitJoin segs hne hns
  refine ⟨hsplit, by rw [hsplit]; simp, ?_⟩
  intro h
  unfold resolveDef at h
  rw [exceptBindOk] at h
  obtain ⟨nm, hnm, h⟩ := h
  revert h
  cases d.definition with
  | classKind c =>
      intro h
      simp only [] at h
      rw [exceptBindOk] at h
      obtain ⟨te, hte, h⟩ := h
      rw [exceptBindOk] at h
      obtain ⟨impl, himpl, h⟩ := h
      simp only [pure, Except.pure, Except.ok.injEq,
        GeneratorDefinition.classDef.injEq] at h
      subst h
      exact ⟨rfl, rfl⟩
  | interfaceKind i =>
      intro h
      simp only [pure, Except.pure, Except.ok.injEq] at h
      exact absurd h (by simp)

/-- Witness for C6 at the name `java.lang.Object` resolved for the class
declaration `class Object {}` (with empty maps): the path splits into the
three segments and the stored signatures are the path and its wrapped form. -/
theorem claim6_witness :
    splitOnChar '/' (JavaName.withSlashes ["java", "lang", "Object"]).data =
      [["java", "lang", "Object"]].flatten.map String.data ∧
    ({ className := "Object", public := false, superClass := javaLangObject,
       transitiveExtends := [], implements := [], signature := "java/lang/Object",
       fullSignature := "Ljava/lang/Object;", constructors := [], methods := [],
       staticMethods := [] } : ClassGeneratorDefinition).fullSignature =
      "L" ++ (JavaName.withSlashes ["java", "lang", "Object"]) ++ ";" := by
  have h := claim6 ["java", "lang", "Object"]
    { keys := ∅, sets := fun _ => ∅ } (fun _ => none) 1
    { name := ["java", "lang", "Object"], public := false,
      definition := JavaDefinitionKind.classKind
        { extendsName := none, implementsList := [], methods := [],
          constructors := [] } }
    { className := "Object", public := false, superClass := javaLangObject,
      transitiveExtends := [], implements := [], signature := "java/lang/Object",
      fullSignature := "Ljava/lang/Object;", constructors := [], methods := [],
      staticMethods := [] }
    (by simp) (by decide)
  have hres : resolveDef { keys := ∅, sets := fun _ => ∅ } (fun _ => none) 1
      { name := ["java", "lang", "Object"], public := false,
        definition := JavaDefinitionKind.classKind
          { extendsName := none, implementsList := [], methods := [],
            constructors := [] } } =
      Except.ok
        (GeneratorDefinition.classDef
          { className := "Object", public := false, superClass := javaLangObject,
            transitiveExtends := [], implements := [],
            signature := "java/lang/Object", fullSignature := "Ljava/lang/Object;",
            constructors := [], methods := [], staticMethods := [] }) := by
    simp [resolveDef, JavaName.lastName, transitiveExtendsLoop, resolveImplements,
      List.mapM.loop, Bind.bind, Except.bind, Finset.sort_empty,
      JavaName.withSlashes, joinWithSlash, javaLangObject, pure, Except.pure]
  exact ⟨h.1, (h.2.2 hres).2⟩

theorem transLoopSpec (emap : JavaName → Option JavaName) :
    ∀ (chain : List JavaName) (A : JavaName) (fuel : Nat),
      chain.length + 1 ≤ fuel →
      List.Chain' (fun x y => emap x = some y) (A :: chain) →
      emap (chain.getLastD A) = none →
      transitiveExtendsLoop emap fuel A = .ok chain
  | [], A, fuel, hf, _, hend => by
      cases fuel with
      | zero => omega
      | succ f =>
          have hend2 : emap A = none := hend
          simp [transitiveExtendsLoop, hend2]
  | c :: cs, A, fuel, hf, hchain, hend => by
      cases fuel with
      | zero => omega
      | succ f =>
          rw [List.chain'_cons] at hchain
          rw [List.getLastD_cons] at hend
          have ih := transLoopSpec emap cs c f (by simp at hf ⊢; omega)
            hchain.2 hend
          simp [transitiveExtendsLoop, hchain.1, ih, Except.map]

theorem foldUpdateSome :
    ∀ (l : List (JavaName × Option JavaName)) (m0 : JavaName → Option JavaName)
      (n : JavaName),
      (l.foldl
        (fun (m : JavaName → Option JavaName) p =>
          Function.update m p.1 (some (p.2.getD javaLangObject)))
        m0) n ≠ none →
      m0 n ≠ none ∨ n ∈ l.map Prod.fst
  | [], m0, n => fun h => .inl h
  | p :: ps, m0, n => by
      intro h
      have ih := foldUpdateSome ps (Function.update m0 p.1
        (some (p.2.getD javaLangObject))) n h
      rcases ih with h1 | h2
      · by_cases he : n = p.1
        · exact .inr (by simp [he])
        · rw [Function.update_noteq he] at h1
          exact .inl h1
      · exact .inr (by simp [h2])

theorem extendsMapOfDomain (defs : JavaDefinitions) (n : JavaName)
    (h : extendsMapOf defs n ≠ none) :
    n ∈ (classExtendsInserts defs).map Prod.fst := by
  unfold extendsMapOf at h
  rcases foldUpdateSome (classExtendsInserts defs) (fun _ => none) n h with h1 | h2
  · exact absurd rfl h1
  · exact h2

theorem chainHaveSome (emap : JavaName → Option JavaName) :
    ∀ (chain : List JavaName) (A : JavaName),
      List.Chain' (fun x y => emap x = some y) (A :: chain) →
      ∀ x ∈ (A :: chain).dropLast, emap x ≠ none
  | [], A, _ => by simp
  | c :: cs, A, h => by
      rw [List.chain'_cons] at h
      intro x hx
      rw [List.dropLast_cons_of_ne_nil (by simp)] at hx
      rcases List.mem_cons.mp hx with he | hm
      · subst he
        simp [h.1]
      · exact chainHaveSome emap cs c h.2 x hm

theorem nodupSubsetLength {α : Type} [DecidableEq α] (l1 l2 : List α)
    (hnd : l1.Nodup) (hsub : ∀ x ∈ l1, x ∈ l2) : l1.length ≤ l2.length := by
  calc l1.length = l1.toFinset.card := (List.toFinset_card_of_nodup hnd).symm
    _ ≤ l2.toFinset.card := Finset.card_le_card
        (fun x hx => List.mem_toFinset.mpr (hsub x (List.mem_toFinset.mp hx)))
    _ ≤ l2.length := l2.toFinset_card_le

/-- Claim C2: when the declared-superclass chain of a class walks down to a
class or stub mapped to the implicit root (and the root itself has no
entry), the resolved ancestor chain is exactly the declared superclasses in
declaration-to-root order followed by the implicit root object type; and an
interface declaration with no `extends` clause resolves to an empty
resolved-extends set. -/
theorem claim2 (defs : JavaDefinitions) (A : JavaName) (chain : List JavaName)
    (m : IfaceMap) (emap2 : JavaName → Option JavaName) (fuel2 : Nat)
    (p : Bool) (iname : JavaName) (nm : String)
    (hchain : List.Chain' (fun x y => extendsMapOf defs x = some y)
      (A :: (chain ++ [javaLangObject])))
    (hobj : extendsMapOf defs javaLangObject = none)
    (hnd : (A :: chain).Nodup) :
    transitiveExtendsOf defs A = .ok (chain ++ [javaLangObject]) ∧
    (iname.getLast? = some nm →
      resolveDef m emap2 fuel2
        { name := iname, public := p,
          definition := JavaDefinitionKind.interfaceKind { extendsList := [] } } =
        .ok (.interfaceDef
          { interfaceName := nm, public := p, extendsList := [] })) := by
  constructor
  · have hdl : (A :: (chain ++ [javaLangObject])).dropLast = A :: chain := by
      rw [List.dropLast_cons_of_ne_nil (by simp)]
      simp
    have hsome : ∀ x ∈ A :: chain, extendsMapOf defs x ≠ none := by
      intro x hx
      exact chainHaveSome (extendsMapOf defs) (chain ++ [javaLangObject]) A hchain
        x (by rw [hdl]; exact hx)
    have hlen : (A :: chain).length ≤ (classExtendsInserts defs).length := by
      have := nodupSubsetLength (A :: chain)
        ((classExtendsInserts defs).map Prod.fst) hnd
        (fun x hx => extendsMapOfDomain defs x (hsome x hx))
      simpa using this
    have hfuel : (chain ++ [javaLangObject]).length + 1 ≤ chainFuel defs := by
      simp only [List.length_append, List.length_cons, List.length_nil]
      simp only [List.length_cons] at hlen
      unfold chainFuel
      omega
    have hend : extendsMapOf defs
        ((chain ++ [javaLangObject]).getLastD A) = none := by
      simpa using hobj
    exact transLoopSpec (extendsMapOf defs) (chain ++ [javaLangObject]) A
      (chainFuel defs) hfuel hchain hend
  · intro hlast
    simp [resolveDef, JavaName.lastName, hlast, Bind.bind, Except.bind, pure,
      Except.pure]

/-- Witness for C2 at the input declaring `class A extends B {}` and
`class B {}`: the ancestor chain of `A` is `[B, java.lang.Object]`, and a
no-extends interface `I` resolves to an empty extends set. -/
theorem claim2_witness :
    transitiveExtendsOf
        { definitions :=
            [{ name := ["A"], public := false,
               definition := JavaDefinitionKind.classKind
                 { extendsName := some ["B"], implementsList := [],
                   methods := [], constructors := [] } },
             { name := ["B"], public := false,
               definition := JavaDefinitionKind.classKind
                 { extendsName := none, implementsList := [], methods := [],
                   constructors := [] } }],
          metadata := { definitions := [] } } ["A"] =
      .ok [["B"], javaLangObject] ∧
    resolveDef { keys := ∅, sets := fun _ => ∅ } (fun _ => none) 1
        { name := ["I"], public := false,
          definition := JavaDefinitionKind.interfaceKind { extendsList := [] } } =
      .ok (.interfaceDef
        { interfaceName := "I", public := false, extendsList := [] }) := by
  have h := claim2
    { definitions :=
        [{ name := ["A"], public := false,
           definition := JavaDefinitionKind.classKind
             { extendsName := some ["B"], implementsList := [],
               methods := [], constructors := [] } },
         { name := ["B"], public := false,
           definition := JavaDefinitionKind.classKind
             { extendsName := none, implementsList := [], methods := [],
               constructors := [] } }],
      metadata := { definitions := [] } } ["A"] [["B"]]
    { keys := ∅, sets := fun _ => ∅ } (fun _ => none) 1 false ["I"] "I"
    (by simp only [List.singleton_append]
        rw [List.chain'_cons, List.chain'_cons]
        refine ⟨by decide, by decide, ?_⟩
        simp)
    (by decide) (by decide)
  exact ⟨h.1, h.2 rfl⟩

theorem mapMMGetOkAll (m : IfaceMap) :
    ∀ l : List JavaName, (∀ x ∈ l, x ∈ m.keys) →
      l.mapM (mGet m) = .ok (l.map m.sets)
  | [] => fun _ => by rw [List.map_nil]; exact exceptMapMNil _
  | x :: xs => fun h => by
      rw [exceptMapMCons]
      have hx : mGet m x = .ok (m.sets x) := by
        simp [mGet, h x (by simp)]
      rw [hx, List.map_cons,
        mapMMGetOkAll m xs (fun y hy => h y (by simp [hy]))]
      rfl

theorem mapMMGetOkInv (m : IfaceMap) :
    ∀ (l : List JavaName) (cs : List (Finset JavaName)),
      l.mapM (mGet m) = .ok cs →
      cs = l.map m.sets ∧ ∀ x ∈ l, x ∈ m.keys
  | [], cs => by
      rw [exceptMapMNil]
      intro h
      simp_all
  | x :: xs, cs => by
      rw [exceptMapMCons]
      intro h
      rw [exceptBindOk] at h
      obtain ⟨s, hs, h⟩ := h
      rw [exceptBindOk] at h
      obtain ⟨ss, hss, h⟩ := h
      have hx : x ∈ m.keys ∧ s = m.sets x := by
        by_cases hk : x ∈ m.keys
        · refine ⟨hk, ?_⟩
          simp [mGet, hk] at hs
          exact hs.symm
        · simp [mGet, hk] at hs
      have ih := mapMMGetOkInv m xs ss hss
      simp only [pure, Except.pure, Except.ok.injEq] at h
      subst h
      refine ⟨by rw [List.map_cons, hx.2, ih.1], ?_⟩
      intro y hy
      rcases List.mem_cons.mp hy with he | hm
      · subst he; exact hx.1
      · exact ih.2 y hm

theorem mapMMGetError (m : IfaceMap) :
    ∀ l : List JavaName, (∃ x ∈ l, x ∉ m.keys) →
      l.mapM (mGet m) = .error "called `Option::unwrap()` on a `None` value"
  | [], h => by simp at h
  | x :: xs, h => by
      rw [exceptMapMCons]
      by_cases hk : x ∈ m.keys
      · have hx : mGet m x = .ok (m.sets x) := by simp [mGet, hk]
        obtain ⟨y, hy, hyk⟩ := h
        have hyxs : y ∈ xs := by
          rcases List.mem_cons.mp hy with he | hm
          · subst he; exact absurd hk hyk
          · exact hm
        rw [hx, mapMMGetError m xs ⟨y, hyxs, hyk⟩]
        rfl
      · have hx : mGet m x =
            .error "called `Option::unwrap()` on a `None` value" := by
          simp [mGet, hk]
        rw [hx]
        rfl

theorem foldlUnionMap (f : JavaName → Finset JavaName) :
    ∀ (l : List JavaName) (acc : Finset JavaName),
      (l.map f).foldl (· ∪ ·) acc = acc ∪ l.toFinset.biUnion f
  | [], acc => by simp
  | x :: xs, acc => by
      simp only [List.map_cons, List.foldl_cons, foldlUnionMap f xs (acc ∪ f x),
        List.toFinset_cons, Finset.biUnion_insert]
      rw [Finset.union_assoc]

/-- Claim C4: a class's resolved implements set is its declared interface
list unioned with each declared interface's transitive-closure set,
deduplicated (hash-set collection) and sorted canonically; consequently any
permutation of the `implements` clause resolves to the identical sorted
list. -/
theorem claim4 (m : IfaceMap) (l1 l2 out : List JavaName)
    (hperm : l1.Perm l2) :
    resolveImplements m l1 = resolveImplements m l2 ∧
    (resolveImplements m l1 = .ok out →
      out.toFinset = l1.toFinset ∪ l1.toFinset.biUnion m.sets ∧
      List.Sorted (· ≤ ·) out ∧ out.Nodup) := by
  constructor
  · by_cases hall : ∀ x ∈ l1, x ∈ m.keys
    · have hall2 : ∀ x ∈ l2, x ∈ m.keys :=
        fun x hx => hall x (hperm.mem_iff.mpr hx)
      have hfe : l1.toFinset = l2.toFinset := by
        ext a
        simp [hperm.mem_iff]
      unfold resolveImplements
      rw [mapMMGetOkAll m l1 hall, mapMMGetOkAll m l2 hall2]
      simp only [Bind.bind, Except.bind]
      rw [foldlUnionMap m.sets l1 ∅, foldlUnionMap m.sets l2 ∅, hfe]
    · push_neg at hall
      obtain ⟨x, hx, hxk⟩ := hall
      have h1 := mapMMGetError m l1 ⟨x, hx, hxk⟩
      have h2 := mapMMGetError m l2 ⟨x, hperm.mem_iff.mp hx, hxk⟩
      unfold resolveImplements
      rw [h1, h2]
      simp [Bind.bind, Except.bind]
  · intro h
    unfold resolveImplements at h
    rw [exceptBindOk] at h
    obtain ⟨cs, hcs, h⟩ := h
    obtain ⟨hcsv, _⟩ := mapMMGetOkInv m l1 cs hcs
    subst hcsv
    simp only [pure, Except.pure, Except.ok.injEq] at h
    subst h
    rw [foldlUnionMap m.sets l1 ∅, Finset.empty_union]
    refine ⟨?_, Finset.sort_sorted _ _, Finset.sort_nodup _ _⟩
    rw [Finset.sort_toFinset]
    rw [Finset.union_comm]

/-- Witness for C4 at a map with the single interface `X` (empty closure
set) and the implements clause `[X]`: resolution yields the sorted list
`[X]` whose element set is the declared set. -/
theorem claim4_witness :
    resolveImplements { keys := {["X"]}, sets := fun _ => ∅ } [["X"]] =
      resolveImplements { keys := {["X"]}, sets := fun _ => ∅ } [["X"]] ∧
    ([["X"]] : List JavaName).toFinset =
      ([["X"]] : List JavaName).toFinset ∪
        ([["X"]] : List JavaName).toFinset.biUnion
          ({ keys := {["X"]}, sets := fun _ => ∅ } : IfaceMap).sets := by
  have hok : resolveImplements { keys := {["X"]}, sets := fun _ => ∅ }
      [["X"]] = .ok [["X"]] := by
    simp [resolveImplements, mGet, List.mapM.loop, Bind.bind,
      Except.bind, pure, Except.pure, Finset.sort_singleton]
  have h := claim4 { keys := {["X"]}, sets := fun _ => ∅ } [["X"]] [["X"]]
    [["X"]] (List.Perm.refl _)
  exact ⟨h.1, (h.2 hok).1⟩

theorem mGetOk {m : IfaceMap} {key : JavaName} {s : Finset JavaName}
    (h : mGet m key = .ok s) : key ∈ m.keys ∧ s = m.sets key := by
  unfold mGet at h
  split at h
  · exact ⟨by assumption, by injection h with h; exact h.symm⟩
  · exact absurd h (by simp)

theorem mGetOkOfMem {m : IfaceMap} {key : JavaName} (h : key ∈ m.keys) :
    mGet m key = .ok (m.sets key) := by
  simp [mGet, h]

theorem mGetErrorOfNotMem {m : IfaceMap} {key : JavaName} (h : key ∉ m.keys) :
    mGet m key = .error unwrapMsg := by
  simp [mGet, h, unwrapMsg]

theorem foldlUnionSetsMem (f : JavaName → Finset JavaName) :
    ∀ (l : List JavaName) (acc : Finset JavaName) (x : JavaName),
      (x ∈ l.foldl (fun a i => a ∪ f i) acc) ↔
        x ∈ acc ∨ ∃ i ∈ l, x ∈ f i
  | [], acc, x => by simp
  | i :: rest, acc, x => by
      simp only [List.foldl_cons, foldlUnionSetsMem f rest (acc ∪ f i) x,
        Finset.mem_union, List.mem_cons]
      constructor
      · rintro ((h | h) | ⟨j, hj, hx⟩)
        · exact .inl h
        · exact .inr ⟨i, .inl rfl, h⟩
        · exact .inr ⟨j, .inr hj, hx⟩
      · rintro (h | ⟨j, (rfl | hj), hx⟩)
        · exact .inl (.inl h)
        · exact .inl (.inr hx)
        · exact .inr ⟨j, hj, hx⟩

theorem extendAllEq (m1 : IfaceMap) :
    ∀ (l : List JavaName) (acc : Finset JavaName),
      (∀ i ∈ l, i ∈ m1.keys) →
      extendAll m1 l acc =
        .ok (l.foldl (fun a i => a ∪ m1.sets i) acc)
  | [], acc, _ => rfl
  | i :: rest, acc, h => by
      rw [extendAll, mGetOkOfMem (h i (by simp))]
      exact extendAllEq m1 rest (acc ∪ m1.sets i)
        (fun j hj => h j (by simp [hj]))

theorem transGenCasesHead {α : Type} {r : α → α → Prop} {a c : α}
    (h : Relation.TransGen r a c) :
    r a c ∨ ∃ b, r a b ∧ Relation.TransGen r b c := by
  induction h with
  | single hb => exact .inl hb
  | tail _ hbc ih =>
      rcases ih with hd | ⟨d, had, hdb⟩
      · exact .inr ⟨_, hd, Relation.TransGen.single hbc⟩
      · exact .inr ⟨d, had, hdb.tail hbc⟩

theorem sandwichRefl (m₀ : IfaceMap) : Sandwich m₀ m₀ :=
  ⟨rfl, fun _ => Finset.Subset.refl _,
    fun _ x hx => Relation.TransGen.single hx⟩

theorem populateRecNotOkOfEmpty (ord : Finset JavaName → List JavaName)
    (m m' : IfaceMap) (key : JavaName)
    (h : populateRec ord (∅ : Finset JavaName) m key = .ok m') : False := by
  rw [populateRec] at h
  cases hmg : mGet m key with
  | error e => rw [hmg] at h; exact absurd h (by simp)
  | ok s =>
      rw [hmg] at h
      simp only [] at h
      rw [dif_neg (Finset.not_mem_empty key)] at h
      exact absurd h (by simp)

theorem populateSpec (ord : Finset JavaName → List JavaName)
    (hord : ValidOrd ord) (m₀ : IfaceMap) :
    ∀ n : Nat,
      (∀ (allowed : Finset JavaName), allowed.card ≤ n →
        ∀ (m m' : IfaceMap) (key : JavaName),
          Sandwich m₀ m →
          populateRec ord allowed m key = .ok m' →
          Sandwich m₀ m' ∧ (∀ j, m.sets j ⊆ m'.sets j) ∧ m'.keys = m.keys ∧
          key ∈ m.keys ∧
          (∀ x, x ∈ m'.sets key ↔ Relation.TransGen (edgeOf m₀) key x) ∧
          (∀ j, Relation.TransGen (edgeOf m₀) key j → j ∈ m₀.keys) ∧
          (∀ j, j ∉ m.keys → m'.sets j = m.sets j)) ∧
      (∀ (allowed : Finset JavaName), allowed.card ≤ n →
        ∀ (l : List JavaName) (m m' : IfaceMap),
          Sandwich m₀ m →
          populateRecAll ord allowed l m = .ok m' →
          Sandwich m₀ m' ∧ (∀ j, m.sets j ⊆ m'.sets j) ∧ m'.keys = m.keys ∧
          (∀ k ∈ l, k ∈ m.keys ∧
            (∀ x, x ∈ m'.sets k ↔ Relation.TransGen (edgeOf m₀) k x) ∧
            (∀ j, Relation.TransGen (edgeOf m₀) k j → j ∈ m₀.keys)) ∧
          (∀ j, j ∉ m.keys → m'.sets j = m.sets j)) := by
  intro n
  induction n with
  | zero =>
      constructor
      · intro allowed hcard m m' key _ h
        rw [Finset.card_eq_zero.mp (Nat.le_zero.mp hcard)] at h
        exact absurd (populateRecNotOkOfEmpty ord m m' key h) (fun f => f)
      · intro allowed hcard l m m' hs h
        cases l with
        | nil =>
            rw [populateRecAll] at h
            injection h with h
            subst h
            exact ⟨hs, fun j => Finset.Subset.refl _, rfl, by simp,
              fun j _ => rfl⟩
        | cons i rest =>
            rw [populateRecAll] at h
            cases hr : populateRec ord allowed m i with
            | error e => rw [hr] at h; exact absurd h (by simp)
            | ok m1 =>
                rw [Finset.card_eq_zero.mp (Nat.le_zero.mp hcard)] at hr
                exact absurd (populateRecNotOkOfEmpty ord m m1 i hr)
                  (fun f => f)
  | succ n ih =>
      obtain ⟨ihA, ihB⟩ := ih
      have stepA : ∀ (allowed : Finset JavaName), allowed.card ≤ n + 1 →
          ∀ (m m' : IfaceMap) (key : JavaName),
            Sandwich m₀ m →
            populateRec ord allowed m key = .ok m' →
            Sandwich m₀ m' ∧ (∀ j, m.sets j ⊆ m'.sets j) ∧ m'.keys = m.keys ∧
            key ∈ m.keys ∧
            (∀ x, x ∈ m'.sets key ↔ Relation.TransGen (edgeOf m₀) key x) ∧
            (∀ j, Relation.TransGen (edgeOf m₀) key j → j ∈ m₀.keys) ∧
            (∀ j, j ∉ m.keys → m'.sets j = m.sets j) := by
        intro allowed hcard m m' key hs h
        rw [populateRec] at h
        cases hmg : mGet m key with
        | error e => rw [hmg] at h; exact absurd h (by simp)
        | ok interfaces =>
            rw [hmg] at h
            simp only [] at h
            obtain ⟨hkey, hint⟩ := mGetOk hmg
            by_cases hka : key ∈ allowed
            · rw [dif_pos hka] at h
              cases hra : populateRecAll ord (allowed.erase key)
                  (ord interfaces) m with
              | error e => rw [hra] at h; exact absurd h (by simp)
              | ok m1 =>
                  rw [hra] at h
                  simp only [] at h
                  have hcard2 : (allowed.erase key).card ≤ n := by
                    rw [Finset.card_erase_of_mem hka]
                    omega
                  obtain ⟨hs1, hgrow1, hkeys1, hmem1, hnk1⟩ :=
                    ihB _ hcard2 (ord interfaces) m m1 hs hra
                  have hmemkeys : ∀ i ∈ ord interfaces, i ∈ m1.keys := by
                    intro i hi
                    rw [hkeys1]
                    exact (hmem1 i hi).1
                  rw [extendAllEq m1 (ord interfaces) interfaces hmemkeys] at h
                  injection h with h
                  subst h
                  -- the new set stored at `key`
                  have hns : ∀ x,
                      x ∈ (ord interfaces).foldl
                        (fun a i => a ∪ m1.sets i) interfaces ↔
                      x ∈ interfaces ∨
                        ∃ i ∈ ord interfaces, x ∈ m1.sets i :=
                    fun x => foldlUnionSetsMem m1.sets (ord interfaces)
                      interfaces x
                  -- reach characterization at `key`
                  have hiffkey : ∀ x,
                      x ∈ (ord interfaces).foldl
                        (fun a i => a ∪ m1.sets i) interfaces ↔
                      Relation.TransGen (edgeOf m₀) key x := by
                    intro x
                    rw [hns]
                    constructor
                    · rintro (hx | ⟨i, hi, hx⟩)
                      · exact hs.2.2 key x (hint ▸ hx)
                      · have hi2 : i ∈ interfaces := (hord _ i).mp hi
                        have hki : Relation.TransGen (edgeOf m₀) key i :=
                          hs.2.2 key i (hint ▸ hi2)
                        have hix : Relation.TransGen (edgeOf m₀) i x :=
                          ((hmem1 i hi).2.1 x).mp hx
                        exact hki.trans hix
                    · intro hx
                      rcases (transGenCasesHead hx) with hd | ⟨b, hb, hbx⟩
                      · refine .inl ?_
                        rw [hint]
                        exact hs.2.1 key hd
                      · have hb2 : b ∈ interfaces := by
                          rw [hint]
                          exact hs.2.1 key hb
                        have hbl : b ∈ ord interfaces := (hord _ b).mpr hb2
                        refine .inr ⟨b, hbl, ?_⟩
                        exact ((hmem1 b hbl).2.1 x).mpr hbx
                  refine ⟨?_, ?_, hkeys1, hkey, ?_, ?_, ?_⟩
                  · -- Sandwich m₀ m'
                    refine ⟨hs1.1, ?_, ?_⟩
                    · intro k
                      by_cases hk : k = key
                      · subst hk
                        intro x hx
                        simp only [Function.update_same]
                        rw [hns]
                        left
                        rw [hint]
                        exact hs.2.1 k hx
                      · intro x hx
                        simp only [Function.update_noteq hk]
                        exact hs1.2.1 k hx
                    · intro k x
                      by_cases hk : k = key
                      · subst hk
                        simp only [Function.update_same]
                        intro hx
                        exact (hiffkey x).mp hx
                      · simp only [Function.update_noteq hk]
                        exact hs1.2.2 k x
                  · -- growth
                    intro j
                    by_cases hj : j = key
                    · subst hj
                      intro x hx
                      simp only [Function.update_same]
                      rw [hns]
                      left
                      rw [hint]
                      exact hx
                    · simp only [Function.update_noteq hj]
                      exact hgrow1 j
                  · -- iff at key
                    intro x
                    simp only [Function.update_same]
                    exact hiffkey x
                  · -- reach-closed at key
                    intro j hj
                    rcases (transGenCasesHead hj) with hd | ⟨b, hb, hbj⟩
                    · have : j ∈ interfaces := by
                        rw [hint]
                        exact hs.2.1 key hd
                      have hjl : j ∈ ord interfaces := (hord _ j).mpr this
                      have := (hmem1 j hjl).1
                      rw [← hs.1]
                      exact this
                    · have : b ∈ interfaces := by
                        rw [hint]
                        exact hs.2.1 key hb
                      have hbl : b ∈ ord interfaces := (hord _ b).mpr this
                      exact (hmem1 b hbl).2.2 j hbj
                  · -- untouched non-keys
                    intro j hj
                    have hjk : j ≠ key := fun he => hj (he ▸ hkey)
                    simp only [Function.update_noteq hjk]
                    exact hnk1 j hj
            · rw [dif_neg hka] at h
              exact absurd h (by simp)
      refine ⟨stepA, ?_⟩
      intro allowed hcard l
      induction l with
      | nil =>
          intro m m' hs h
          rw [populateRecAll] at h
          injection h with h
          subst h
          exact ⟨hs, fun j => Finset.Subset.refl _, rfl, by simp, fun j _ => rfl⟩
      | cons i rest ihl =>
          intro m m' hs h
          rw [populateRecAll] at h
          cases hr : populateRec ord allowed m i with
          | error e => rw [hr] at h; exact absurd h (by simp)
          | ok m1 =>
              rw [hr] at h
              obtain ⟨hs1, hgrow1, hkeys1, hikey, hiff1, hrc1, hnk1⟩ :=
                stepA allowed hcard m m1 i hs hr
              obtain ⟨hs2, hgrow2, hkeys2, hmem2, hnk2⟩ :=
                ihl m1 m' hs1 h
              refine ⟨hs2, ?_, by rw [hkeys2, hkeys1], ?_, ?_⟩
              · intro j
                exact Finset.Subset.trans (hgrow1 j) (hgrow2 j)
              · intro k hk
                rcases List.mem_cons.mp hk with he | hm
                · subst he
                  refine ⟨hikey, ?_, hrc1⟩
                  intro x
                  constructor
                  · intro hx
                    exact hs2.2.2 k x hx
                  · intro hx
                    exact hgrow2 k ((hiff1 x).mpr hx)
                · obtain ⟨hk1, hiff, hrc⟩ := hmem2 k hm
                  rw [hkeys1] at hk1
                  exact ⟨hk1, hiff, hrc⟩
              · intro j hj
                rw [hnk2 j (by rw [hkeys1]; exact hj), hnk1 j hj]

theorem validCanonOrd : ValidOrd canonOrd := by
  intro s x
  exact Finset.mem_sort _

theorem populateOkSpec (ord : Finset JavaName → List JavaName)
    (hord : ValidOrd ord) (m₀ m' : IfaceMap)
    (h : populateInterfaceExtends ord m₀ = .ok m') :
    m'.keys = m₀.keys ∧
    (∀ k ∈ m₀.keys, ∀ x,
      x ∈ m'.sets k ↔ Relation.TransGen (edgeOf m₀) k x) ∧
    (∀ k ∈ m₀.keys, ∀ j,
      Relation.TransGen (edgeOf m₀) k j → j ∈ m₀.keys) ∧
    (∀ j, j ∉ m₀.keys → m'.sets j = m₀.sets j) := by
  unfold populateInterfaceExtends at h
  obtain ⟨hs, _, hkeys, hmem, hnk⟩ :=
    (populateSpec ord hord m₀ m₀.keys.card).2 m₀.keys (le_refl _)
      (ord m₀.keys) m₀ m' (sandwichRefl m₀) h
  refine ⟨hkeys, ?_, ?_, hnk⟩
  · intro k hk x
    exact (hmem k ((hord _ k).mpr hk)).2.1 x
  · intro k hk j
    exact (hmem k ((hord _ k).mpr hk)).2.2 j

theorem closedReachInKeys (m₀ : IfaceMap) (hmc : MentionClosedMap m₀)
    (i : JavaName) (hi : i ∈ m₀.keys) :
    ∀ j, Relation.TransGen (edgeOf m₀) i j → j ∈ m₀.keys := by
  intro j h
  induction h with
  | single hb => exact hmc i hi hb
  | tail _ hbc ih => exact hmc _ ih hbc

theorem populateRecClosedSpec (ord : Finset JavaName → List JavaName)
    (hord : ValidOrd ord) (m₀ : IfaceMap)
    (hac : AcyclicMap m₀) (hcl : ClosedMap m₀) :
    ∀ n : Nat,
      (∀ allowed : Finset JavaName, allowed.card ≤ n →
        ∀ key, key ∈ m₀.keys → key ∈ allowed →
          (∀ j, Relation.TransGen (edgeOf m₀) key j → j ∈ allowed) →
          populateRec ord allowed m₀ key = .ok m₀) ∧
      (∀ allowed : Finset JavaName, allowed.card ≤ n →
        ∀ l : List JavaName,
          (∀ i ∈ l, i ∈ m₀.keys ∧ i ∈ allowed ∧
            (∀ j, Relation.TransGen (edgeOf m₀) i j → j ∈ allowed)) →
          populateRecAll ord allowed l m₀ = .ok m₀) := by
  intro n
  induction n with
  | zero =>
      constructor
      · intro allowed hcard key _ hka _
        rw [Finset.card_eq_zero.mp (Nat.le_zero.mp hcard)] at hka
        exact absurd hka (Finset.not_mem_empty key)
      · intro allowed hcard l hl
        cases l with
        | nil => rw [populateRecAll]
        | cons i rest =>
            have := (hl i (by simp)).2.1
            rw [Finset.card_eq_zero.mp (Nat.le_zero.mp hcard)] at this
            exact absurd this (Finset.not_mem_empty i)
  | succ n ih =>
      obtain ⟨_, ihB⟩ := ih
      have stepA : ∀ allowed : Finset JavaName, allowed.card ≤ n + 1 →
          ∀ key, key ∈ m₀.keys → key ∈ allowed →
            (∀ j, Relation.TransGen (edgeOf m₀) key j → j ∈ allowed) →
            populateRec ord allowed m₀ key = .ok m₀ := by
        intro allowed hcard key hkey hka hreach
        rw [populateRec, mGetOkOfMem hkey]
        simp only []
        rw [dif_pos hka]
        have hmembers : ∀ i ∈ ord (m₀.sets key), i ∈ m₀.keys ∧
            i ∈ allowed.erase key ∧
            (∀ j, Relation.TransGen (edgeOf m₀) i j → j ∈ allowed.erase key) := by
          intro i hi
          have hi2 : i ∈ m₀.sets key := (hord _ i).mp hi
          have hedge : Relation.TransGen (edgeOf m₀) key i :=
            Relation.TransGen.single hi2
          have hik : i ∈ m₀.keys := hcl.1 key hkey hi2
          have hine : i ≠ key := by
            intro he
            exact hac key (he ▸ hedge)
          refine ⟨hik, Finset.mem_erase.mpr ⟨hine, hreach i hedge⟩, ?_⟩
          intro j hj
          have hkj : Relation.TransGen (edgeOf m₀) key j :=
            Relation.TransGen.head hi2 hj
          have hjne : j ≠ key := by
            intro he
            exact hac key (hedge.trans (he ▸ hj))
          exact Finset.mem_erase.mpr ⟨hjne, hreach j hkj⟩
        have hcard2 : (allowed.erase key).card ≤ n := by
          rw [Finset.card_erase_of_mem hka]
          omega
        rw [ihB _ hcard2 (ord (m₀.sets key)) hmembers]
        simp only []
        rw [extendAllEq m₀ (ord (m₀.sets key)) (m₀.sets key)
          (fun i hi => (hmembers i hi).1)]
        simp only []
        have hsame : (ord (m₀.sets key)).foldl
            (fun a i => a ∪ m₀.sets i) (m₀.sets key) = m₀.sets key := by
          apply Finset.ext
          intro x
          rw [foldlUnionSetsMem]
          constructor
          · rintro (hx | ⟨i, hi, hx⟩)
            · exact hx
            · exact hcl.2 key hkey i ((hord _ i).mp hi) hx
          · exact fun hx => .inl hx
        rw [hsame, Function.update_eq_self]
      refine ⟨stepA, ?_⟩
      intro allowed hcard l
      induction l with
      | nil => intro _; rw [populateRecAll]
      | cons i rest ihl =>
          intro hl
          rw [populateRecAll]
          obtain ⟨hik, hia, hir⟩ := hl i (by simp)
          rw [stepA allowed hcard i hik hia hir]
          exact ihl (fun j hj => hl j (by simp [hj]))

theorem populateClosedOk (ord : Finset JavaName → List JavaName)
    (hord : ValidOrd ord) (m₀ : IfaceMap)
    (hac : AcyclicMap m₀) (hcl : ClosedMap m₀) :
    populateInterfaceExtends ord m₀ = .ok m₀ := by
  unfold populateInterfaceExtends
  exact (populateRecClosedSpec ord hord m₀ hac hcl m₀.keys.card).2
    m₀.keys (le_refl _) (ord m₀.keys)
    (fun i hi => by
      have hik : i ∈ m₀.keys := (hord _ i).mp hi
      exact ⟨hik, hik, closedReachInKeys m₀ hcl.1 i hik⟩)

theorem populateNoCycleSpec (ord : Finset JavaName → List JavaName)
    (hord : ValidOrd ord) (m₀ : IfaceMap) (hac : AcyclicMap m₀) :
    ∀ n : Nat,
      (∀ allowed : Finset JavaName, allowed.card ≤ n →
        ∀ (m : IfaceMap) (key : JavaName), Sandwich m₀ m →
          (key ∈ m₀.keys → key ∈ allowed) →
          (∀ j, Relation.TransGen (edgeOf m₀) key j → j ∈ m₀.keys →
            j ∈ allowed) →
          (∃ m', populateRec ord allowed m key = .ok m') ∨
            populateRec ord allowed m key = .error unwrapMsg) ∧
      (∀ allowed : Finset JavaName, allowed.card ≤ n →
        ∀ (l : List JavaName) (m : IfaceMap), Sandwich m₀ m →
          (∀ i ∈ l, (i ∈ m₀.keys → i ∈ allowed) ∧
            (∀ j, Relation.TransGen (edgeOf m₀) i j → j ∈ m₀.keys →
              j ∈ allowed)) →
          (∃ m', populateRecAll ord allowed l m = .ok m') ∨
            populateRecAll ord allowed l m = .error unwrapMsg) := by
  intro n
  induction n with
  | zero =>
      constructor
      · intro allowed hcard m key hs h1 _
        by_cases hk : key ∈ m.keys
        · exfalso
          have := h1 (hs.1 ▸ hk)
          rw [Finset.card_eq_zero.mp (Nat.le_zero.mp hcard)] at this
          exact absurd this (Finset.not_mem_empty key)
        · right
          rw [populateRec, mGetErrorOfNotMem hk]
      · intro allowed hcard l m hs hl
        cases l with
        | nil => exact .inl ⟨m, by rw [populateRecAll]⟩
        | cons i rest =>
            by_cases hk : i ∈ m.keys
            · exfalso
              have := (hl i (by simp)).1 (hs.1 ▸ hk)
              rw [Finset.card_eq_zero.mp (Nat.le_zero.mp hcard)] at this
              exact absurd this (Finset.not_mem_empty i)
            · right
              rw [populateRecAll, populateRec, mGetErrorOfNotMem hk]
  | succ n ih =>
      obtain ⟨_, ihB⟩ := ih
      have stepA : ∀ allowed : Finset JavaName, allowed.card ≤ n + 1 →
          ∀ (m : IfaceMap) (key : JavaName), Sandwich m₀ m →
            (key ∈ m₀.keys → key ∈ allowed) →
            (∀ j, Relation.TransGen (edgeOf m₀) key j → j ∈ m₀.keys →
              j ∈ allowed) →
            (∃ m', populateRec ord allowed m key = .ok m') ∨
              populateRec ord allowed m key = .error unwrapMsg := by
        intro allowed hcard m key hs h1 h2
        by_cases hk : key ∈ m.keys
        · have hka : key ∈ allowed := h1 (hs.1 ▸ hk)
          rw [populateRec, mGetOkOfMem hk]
          simp only []
          rw [dif_pos hka]
          have hcard2 : (allowed.erase key).card ≤ n := by
            rw [Finset.card_erase_of_mem hka]
            omega
          have hmembers : ∀ i ∈ ord (m.sets key),
              (i ∈ m₀.keys → i ∈ allowed.erase key) ∧
              (∀ j, Relation.TransGen (edgeOf m₀) i j → j ∈ m₀.keys →
                j ∈ allowed.erase key) := by
            intro i hi
            have hi2 : i ∈ m.sets key := (hord _ i).mp hi
            have hki : Relation.TransGen (edgeOf m₀) key i :=
              hs.2.2 key i hi2
            constructor
            · intro hik
              have hine : i ≠ key := fun he => hac key (he ▸ hki)
              exact Finset.mem_erase.mpr ⟨hine, h2 i hki hik⟩
            · intro j hj hjk
              have hkj : Relation.TransGen (edgeOf m₀) key j :=
                hki.trans hj
              have hjne : j ≠ key := fun he => hac key (hki.trans (he ▸ hj))
              exact Finset.mem_erase.mpr ⟨hjne, h2 j hkj hjk⟩
          rcases ihB _ hcard2 (ord (m.sets key)) m hs hmembers with
            ⟨m1, hok⟩ | herr
          · rw [hok]
            simp only []
            obtain ⟨_, _, hkeys1, hmem1, _⟩ :=
              (populateSpec ord hord m₀ (allowed.erase key).card).2
                (allowed.erase key) (le_refl _) (ord (m.sets key)) m m1 hs hok
            rw [extendAllEq m1 (ord (m.sets key)) (m.sets key)
              (fun i hi => hkeys1 ▸ (hmem1 i hi).1)]
            exact .inl ⟨_, rfl⟩
          · rw [herr]
            exact .inr rfl
        · right
          rw [populateRec, mGetErrorOfNotMem hk]
      refine ⟨stepA, ?_⟩
      intro allowed hcard l
      induction l with
      | nil => intro m _ _; exact .inl ⟨m, by rw [populateRecAll]⟩
      | cons i rest ihl =>
          intro m hs hl
          rcases stepA allowed hcard m i hs (hl i (by simp)).1
            (hl i (by simp)).2 with ⟨m1, hok⟩ | herr
          · have hs1 : Sandwich m₀ m1 :=
              ((populateSpec ord hord m₀ allowed.card).1 allowed (le_refl _)
                m m1 i hs hok).1
            rcases ihl m1 hs1 (fun j hj => hl j (by simp [hj])) with
              ⟨m2, hok2⟩ | herr2
            · refine .inl ⟨m2, ?_⟩
              rw [populateRecAll, hok]
              exact hok2
            · refine .inr ?_
              rw [populateRecAll, hok]
              exact herr2
          · refine .inr ?_
            rw [populateRecAll, herr]

theorem populateUnresolvedError (ord : Finset JavaName → List JavaName)
    (hord : ValidOrd ord) (m₀ : IfaceMap) (hac : AcyclicMap m₀)
    (hunres : ∃ I ∈ m₀.keys, ∃ x ∈ m₀.sets I, x ∉ m₀.keys) :
    populateInterfaceExtends ord m₀ = .error unwrapMsg := by
  rcases (populateNoCycleSpec ord hord m₀ hac m₀.keys.card).2 m₀.keys
      (le_refl _) (ord m₀.keys) m₀ (sandwichRefl m₀)
      (fun i _ => ⟨fun hik => hik, fun j _ hjk => hjk⟩) with ⟨m', hok⟩ | herr
  · exfalso
    obtain ⟨I, hI, x, hx, hxk⟩ := hunres
    have hspec := populateOkSpec ord hord m₀ m'
      (by unfold populateInterfaceExtends; exact hok)
    exact hxk (hspec.2.2.1 I hI x (Relation.TransGen.single hx))
  · unfold populateInterfaceExtends
    exact herr

/-- Claim C3: the interface transitive-closure computation on an acyclic,
mention-closed mapping is idempotent — running the closure a second time on
the closed result changes nothing — and monotone: every interface's closure
set contains its directly-extended set. -/
theorem claim3 (ord : Finset JavaName → List JavaName)
    (m mm m1 m' : IfaceMap) (hord : ValidOrd ord) :
    (AcyclicMap m → MentionClosedMap m →
      populateInterfaceExtends ord m = .ok m1 →
      populateInterfaceExtends ord m1 = .ok m1) ∧
    (populateInterfaceExtends ord mm = .ok m' →
      ∀ I, mm.sets I ⊆ m'.sets I) := by
  constructor
  · intro hac hmc h
    obtain ⟨hkeys, hiff, hrc, hnk⟩ := populateOkSpec ord hord m m1 h
    have hsub : ∀ a b, edgeOf m1 a b → Relation.TransGen (edgeOf m) a b := by
      intro a b hab
      by_cases ha : a ∈ m.keys
      · exact (hiff a ha b).mp hab
      · have hab2 : b ∈ m1.sets a := hab
        rw [hnk a ha] at hab2
        exact Relation.TransGen.single hab2
    have hac1 : AcyclicMap m1 := by
      intro a hcyc
      have : Relation.TransGen (Relation.TransGen (edgeOf m)) a a :=
        Relation.TransGen.mono hsub hcyc
      rw [Relation.transGen_idem] at this
      exact hac a this
    have hcl1 : ClosedMap m1 := by
      constructor
      · intro k hk x hx
        rw [hkeys] at hk
        rw [hkeys]
        exact hrc k hk x ((hiff k hk x).mp hx)
      · intro k hk i hi x hx
        rw [hkeys] at hk
        have hki : Relation.TransGen (edgeOf m) k i := (hiff k hk i).mp hi
        have hik : i ∈ m.keys := hrc k hk i hki
        have hix : Relation.TransGen (edgeOf m) i x := (hiff i hik x).mp hx
        exact (hiff k hk x).mpr (hki.trans hix)
    exact populateClosedOk ord hord m1 hac1 hcl1
  · intro h I
    unfold populateInterfaceExtends at h
    exact ((populateSpec ord hord mm mm.keys.card).2 mm.keys (le_refl _)
      (ord mm.keys) mm m' (sandwichRefl mm) h).2.1 I

/-- Claim C8: the pipeline is deterministic across invocations — for one
input, two runs of parse-and-resolve under any two hash-enumeration orders
produce the same resolved model, so any emission function of that model
yields byte-identical output. -/
theorem claim8 {α : Type} (emit : GeneratorData → α)
    (ord1 ord2 : Finset JavaName → List JavaName)
    (input : List TokenTree) (d1 d2 : GeneratorData)
    (h1 : ValidOrd ord1) (h2 : ValidOrd ord2)
    (hr1 : (parseJavaDefinition input >>= toGeneratorDataO ord1) = .ok d1)
    (hr2 : (parseJavaDefinition input >>= toGeneratorDataO ord2) = .ok d2) :
    emit d1 = emit d2 := by
  rw [exceptBindOk] at hr1 hr2
  obtain ⟨defs1, hp1, hg1⟩ := hr1
  obtain ⟨defs2, hp2, hg2⟩ := hr2
  rw [hp1] at hp2
  injection hp2 with hp2
  subst hp2
  unfold toGeneratorDataO at hg1 hg2
  rw [exceptBindOk] at hg1 hg2
  obtain ⟨me1, hm1, hg1⟩ := hg1
  obtain ⟨me2, hm2, hg2⟩ := hg2
  have hmeq : me1 = me2 := by
    obtain ⟨hk1, hiff1, _, hnk1⟩ :=
      populateOkSpec ord1 h1 (ifaceMapOf defs1) me1 hm1
    obtain ⟨hk2, hiff2, _, hnk2⟩ :=
      populateOkSpec ord2 h2 (ifaceMapOf defs1) me2 hm2
    have hkeys : me1.keys = me2.keys := by rw [hk1, hk2]
    have hsets : me1.sets = me2.sets := by
      funext j
      by_cases hj : j ∈ (ifaceMapOf defs1).keys
      · apply Finset.ext
        intro x
        rw [hiff1 j hj x, hiff2 j hj x]
      · rw [hnk1 j hj, hnk2 j hj]
    cases me1
    cases me2
    simp only [IfaceMap.mk.injEq]
    exact ⟨hkeys, hsets⟩
  rw [hmeq] at hg1
  rw [exceptBindOk] at hg1 hg2
  obtain ⟨l1, hl1, hg1⟩ := hg1
  obtain ⟨l2, hl2, hg2⟩ := hg2
  rw [hl1] at hl2
  injection hl2 with hl2
  subst hl2
  simp only [pure, Except.pure, Except.ok.injEq] at hg1 hg2
  rw [← hg1, ← hg2]

/-- Propagation of the first resolution failure through `mapM`: if a prefix
resolves and the next declaration fails, the whole traversal fails with that
error. -/
theorem mapMAppendError {α β : Type} (f : α → Except String β) :
    ∀ (pre : List α) (ys : List β) (d : α) (post : List α) (e : String),
      pre.mapM f = .ok ys → f d = .error e →
      (pre ++ d :: post).mapM f = .error e
  | [], _, d, post, e => fun _ hd => by
      rw [List.nil_append, exceptMapMCons, hd]
      rfl
  | a :: as, ys, d, post, e => fun hpre hd => by
      rw [exceptMapMCons] at hpre
      rw [exceptBindOk] at hpre
      obtain ⟨b, hb, hpre⟩ := hpre
      rw [exceptBindOk] at hpre
      obtain ⟨bs, hbs, _⟩ := hpre
      rw [List.cons_append, exceptMapMCons, hb]
      simp only [Bind.bind, Except.bind]
      rw [mapMAppendError f as bs d post e hbs hd]

/-- Witness for C3 at the one-key map with empty direct sets: closing it
returns it unchanged, so a second run is literally the first, and each
closure set contains the direct set. -/
theorem claim3_witness :
    populateInterfaceExtends canonOrd
        ({ keys := {["A"]}, sets := fun _ => ∅ } : IfaceMap) =
      .ok ({ keys := {["A"]}, sets := fun _ => ∅ } : IfaceMap) ∧
    ∀ I, ({ keys := {["A"]}, sets := fun _ => ∅ } : IfaceMap).sets I ⊆
      ({ keys := {["A"]}, sets := fun _ => ∅ } : IfaceMap).sets I := by
  have hpop : populateInterfaceExtends canonOrd
      ({ keys := {["A"]}, sets := fun _ => ∅ } : IfaceMap) =
      .ok ({ keys := {["A"]}, sets := fun _ => ∅ } : IfaceMap) := by
    simp [populateInterfaceExtends, canonOrd, Finset.sort_singleton,
      populateRecAll, populateRec, mGet, Finset.erase_singleton,
      Finset.sort_empty, extendAll, Function.update_eq_self]
  have hac : AcyclicMap ({ keys := {["A"]}, sets := fun _ => ∅ } : IfaceMap) := by
    have hno : ∀ u v, ¬ Relation.TransGen
        (edgeOf ({ keys := {["A"]}, sets := fun _ => ∅ } : IfaceMap)) u v := by
      intro u v h
      induction h with
      | single h1 => simp [edgeOf] at h1
      | tail _ h2 _ => simp [edgeOf] at h2
    exact fun a => hno a a
  have hmc : MentionClosedMap
      ({ keys := {["A"]}, sets := fun _ => ∅ } : IfaceMap) := by
    intro k _ x hx
    simp at hx
  have h := claim3 canonOrd
    ({ keys := {["A"]}, sets := fun _ => ∅ } : IfaceMap)
    ({ keys := {["A"]}, sets := fun _ => ∅ } : IfaceMap)
    ({ keys := {["A"]}, sets := fun _ => ∅ } : IfaceMap)
    ({ keys := {["A"]}, sets := fun _ => ∅ } : IfaceMap) validCanonOrd
  exact ⟨h.1 hac hmc hpop, h.2 hpop⟩

/-- Witness for C8 at the empty input under the canonical enumeration used
twice: both runs resolve to the empty model, and the emitted definition
lists agree. -/
theorem claim8_witness :
    (parseJavaDefinition [] >>= toGeneratorDataO canonOrd) =
      .ok { definitions := [] } ∧
    GeneratorData.definitions { definitions := [] } =
      GeneratorData.definitions { definitions := [] } := by
  have hrun : (parseJavaDefinition [] >>= toGeneratorDataO canonOrd) =
      .ok { definitions := [] } := by
    show toGeneratorDataO canonOrd
      { definitions := [], metadata := { definitions := [] } } = _
    simp [toGeneratorDataO, populateInterfaceExtends, ifaceMapOf,
      ifaceExtendsInserts, canonOrd, Finset.sort_empty, populateRecAll,
      List.mapM.loop, Bind.bind, Except.bind, pure, Except.pure]
  exact ⟨hrun, claim8 GeneratorData.definitions canonOrd canonOrd []
    { definitions := [] } { definitions := [] } validCanonOrd validCanonOrd
    hrun hrun⟩

/-- Claim C1: an unresolved name aborts resolution with the unwrap error in
the two positions that are actually looked up in the interface map — a name
in an interface `extends` position that is not itself a key (on acyclic
input), and a name in a class `implements` clause absent from the closed
map.  The claim's own scenario, a class `extends Unknown`, does not abort:
see the counterexample. -/
theorem claim1 (defs : JavaDefinitions)
    (pre post : List JavaDefinition) (d : JavaDefinition)
    (c : JavaClass) (m' : IfaceMap) (ys : List GeneratorDefinition)
    (x : JavaName) :
    (AcyclicMap (ifaceMapOf defs) →
      (∃ I ∈ (ifaceMapOf defs).keys, ∃ y ∈ (ifaceMapOf defs).sets I,
        y ∉ (ifaceMapOf defs).keys) →
      toGeneratorData defs = .error unwrapMsg) ∧
    (populateInterfaceExtends canonOrd (ifaceMapOf defs) = .ok m' →
      defs.definitions = pre ++ d :: post →
      pre.mapM (resolveDef m' (extendsMapOf defs) (chainFuel defs)) = .ok ys →
      d.definition = .classKind c →
      x ∈ c.implementsList → x ∉ m'.keys →
      (∃ nm, d.name.lastName = .ok nm) →
      (∃ te, transitiveExtendsLoop (extendsMapOf defs) (chainFuel defs)
          d.name = .ok te) →
      toGeneratorData defs = .error unwrapMsg) := by
  constructor
  · intro hac hunres
    unfold toGeneratorData toGeneratorDataO
    rw [populateUnresolvedError canonOrd validCanonOrd _ hac hunres]
    rfl
  · rintro hpop hsplit hpre hdk hx hxk ⟨nm, hnm⟩ ⟨te, hte⟩
    have hres : resolveDef m' (extendsMapOf defs) (chainFuel defs) d =
        .error unwrapMsg := by
      unfold resolveDef
      rw [hnm]
      simp only [Bind.bind, Except.bind]
      rw [hdk]
      simp only []
      rw [hte]
      simp only []
      have himpl : resolveImplements m' c.implementsList =
          .error unwrapMsg := by
        unfold resolveImplements
        rw [mapMMGetError m' c.implementsList ⟨x, hx, hxk⟩]
        rfl
      rw [himpl]
    unfold toGeneratorData toGeneratorDataO
    rw [hpop]
    simp only [Bind.bind, Except.bind]
    rw [hsplit, mapMAppendError _ pre ys d post unwrapMsg hpre hres]

/-- Counterexample to C1 as stated: a class extending the undeclared name
`Unknown` resolves successfully — the chain walk stops at the unknown name
(the source's `break`), leaving the truncated chain `[Unknown]` in the
output instead of aborting. -/
theorem claim1_counterexample : toGeneratorData
    { definitions :=
        [{ name := ["A"], public := false,
           definition := JavaDefinitionKind.classKind
             { extendsName := some ["Unknown"], implementsList := [],
               methods := [], constructors := [] } }],
      metadata := { definitions := [] } } =
    .ok { definitions :=
      [GeneratorDefinition.classDef
        { className := "A", public := false, superClass := ["Unknown"],
          transitiveExtends := [["Unknown"]], implements := [],
          signature := "A", fullSignature := "LA;", constructors := [],
          methods := [], staticMethods := [] }] } := by
  simp [toGeneratorData, toGeneratorDataO, populateInterfaceExtends, ifaceMapOf,
    ifaceExtendsInserts, canonOrd, Finset.sort_empty, populateRecAll,
    List.mapM.loop, Bind.bind, Except.bind, pure, Except.pure, Except.map,
    resolveDef, JavaName.lastName, transitiveExtendsLoop, extendsMapOf,
    classExtendsInserts, chainFuel, resolveImplements, JavaName.withSlashes,
    joinWithSlash, Function.update, javaLangObject]

/-- Witness for C1: an interface extending the undeclared `Unknown` aborts
with the unwrap error, and so does a class implementing the undeclared
`Unknown`. -/
theorem claim1_witness :
    toGeneratorData
      { definitions :=
          [{ name := ["X"], public := false,
             definition := JavaDefinitionKind.interfaceKind
               { extendsList := [["Unknown"]] } }],
        metadata := { definitions := [] } } = .error unwrapMsg ∧
    toGeneratorData
      { definitions :=
          [{ name := ["A"], public := false,
             definition := JavaDefinitionKind.classKind
               { extendsName := none, implementsList := [["Unknown"]],
                 methods := [], constructors := [] } }],
        metadata := { definitions := [] } } = .error unwrapMsg := by
  constructor
  · have hstep : ∀ u v, edgeOf (ifaceMapOf
        { definitions :=
            [{ name := ["X"], public := false,
               definition := JavaDefinitionKind.interfaceKind
                 { extendsList := [["Unknown"]] } }],
          metadata := { definitions := [] } }) u v →
        u = ["X"] ∧ v = ["Unknown"] := by
      intro u v h
      by_cases hu : u = ["X"]
      · subst hu
        refine ⟨rfl, ?_⟩
        simpa [edgeOf, ifaceMapOf, ifaceExtendsInserts, Function.update]
          using h
      · exfalso
        simp [edgeOf, ifaceMapOf, ifaceExtendsInserts, Function.update, hu]
          at h
    have hac : AcyclicMap (ifaceMapOf
        { definitions :=
            [{ name := ["X"], public := false,
               definition := JavaDefinitionKind.interfaceKind
                 { extendsList := [["Unknown"]] } }],
          metadata := { definitions := [] } }) := by
      have htg : ∀ u v, Relation.TransGen (edgeOf (ifaceMapOf
          { definitions :=
              [{ name := ["X"], public := false,
                 definition := JavaDefinitionKind.interfaceKind
                   { extendsList := [["Unknown"]] } }],
            metadata := { definitions := [] } })) u v →
          u = ["X"] ∧ v = ["Unknown"] := by
        intro u v h
        induction h with
        | single h1 => exact hstep _ _ h1
        | tail _ h2 ih =>
            obtain ⟨hu, hb⟩ := ih
            obtain ⟨hbX, hv⟩ := hstep _ _ h2
            rw [hb] at hbX
            exact absurd hbX (by decide)
      intro a h
      obtain ⟨h1, h2⟩ := htg a a h
      rw [h1] at h2
      exact absurd h2 (by decide)
    have hunres : ∃ I ∈ (ifaceMapOf
        { definitions :=
            [{ name := ["X"], public := false,
               definition := JavaDefinitionKind.interfaceKind
                 { extendsList := [["Unknown"]] } }],
          metadata := { definitions := [] } }).keys,
        ∃ y ∈ (ifaceMapOf
          { definitions :=
              [{ name := ["X"], public := false,
                 definition := JavaDefinitionKind.interfaceKind
                   { extendsList := [["Unknown"]] } }],
            metadata := { definitions := [] } }).sets I,
          y ∉ (ifaceMapOf
            { definitions :=
                [{ name := ["X"], public := false,
                   definition := JavaDefinitionKind.interfaceKind
                     { extendsList := [["Unknown"]] } }],
              metadata := { definitions := [] } }).keys := by
      refine ⟨["X"], by simp [ifaceMapOf, ifaceExtendsInserts], ["Unknown"],
        ?_, by simp [ifaceMapOf, ifaceExtendsInserts]⟩
      simp [ifaceMapOf, ifaceExtendsInserts, Function.update]
    exact (claim1
      { definitions :=
          [{ name := ["X"], public := false,
             definition := JavaDefinitionKind.interfaceKind
               { extendsList := [["Unknown"]] } }],
        metadata := { definitions := [] } }
      [] [] { name := ["X"], public := false,
              definition := JavaDefinitionKind.interfaceKind
                { extendsList := [["Unknown"]] } }
      { extendsName := none, implementsList := [], methods := [],
        constructors := [] }
      { keys := ∅, sets := fun _ => ∅ } [] []).1 hac hunres
  · have hpop : populateInterfaceExtends canonOrd (ifaceMapOf
        { definitions :=
            [{ name := ["A"], public := false,
               definition := JavaDefinitionKind.classKind
                 { extendsName := none, implementsList := [["Unknown"]],
                   methods := [], constructors := [] } }],
          metadata := { definitions := [] } }) =
        .ok { keys := ∅, sets := fun _ => ∅ } := by
      simp [ifaceMapOf, ifaceExtendsInserts, populateInterfaceExtends,
        canonOrd, Finset.sort_empty, populateRecAll]
    exact (claim1
      { definitions :=
          [{ name := ["A"], public := false,
             definition := JavaDefinitionKind.classKind
               { extendsName := none, implementsList := [["Unknown"]],
                 methods := [], constructors := [] } }],
        metadata := { definitions := [] } }
      [] [] { name := ["A"], public := false,
              definition := JavaDefinitionKind.classKind
                { extendsName := none, implementsList := [["Unknown"]],
                  methods := [], constructors := [] } }
      { extendsName := none, implementsList := [["Unknown"]],
        methods := [], constructors := [] }
      { keys := ∅, sets := fun _ => ∅ } [] ["Unknown"]).2
      hpop rfl (exceptMapMNil _) rfl (by simp) (by simp)
      ⟨"A", rfl⟩
      ⟨[javaLangObject], by
        simp [transitiveExtendsLoop, extendsMapOf, classExtendsInserts,
          chainFuel, Except.map, Function.update, javaLangObject]⟩
